import Mathlib

/-!
Verification of the boolback review/progress module (tom.quest repository,
file tom-quest-api/boolback.py) against its natural-language specification.

The Python module is shallowly embedded: JSON artifact contents are modelled
by the inductive type `JVal` (JSON numbers restricted to integers, which is
what every artifact field read by the module contains; floats only appear in
the poison-ratio filter, modelled over rationals), and each Python function
relevant to the claims is translated into an executable Lean definition that
keeps the source structure: dynamic `isinstance` checks become pattern
matches, raised `HTTPException`s become `Except.error`, and the process
table / current hostname become explicit parameters.
-/

namespace TomQuest

/-- JSON-like value, modelling the artifact contents the module reads.
JSON numbers are modelled as integers (see module docstring). -/
inductive JVal where
  | null
  | bool (b : Bool)
  | int (n : Int)
  | str (s : String)
  | arr (elems : List JVal)
  | obj (kvs : List (String × JVal))
  deriving Repr

/-- Python dict lookup on the key/value list of a JSON object
(keys of a parsed JSON object are unique, so first match suffices). -/
def jLookup (kvs : List (String × JVal)) (k : String) : Option JVal :=
  match kvs.find? (fun p => p.1 = k) with
  | some p => some p.2
  | none => none

/-- `value.get(k)` on a JSON object; `none` when the value is
not an object or the key is missing. -/
def JVal.get? : JVal → String → Option JVal
  | .obj kvs, k => jLookup kvs k
  | _, _ => none

/-- `value.get(k, d)` on a JSON object with default `d`. -/
def JVal.getD (v : JVal) (k : String) (d : JVal) : JVal :=
  match v.get? k with
  | some w => w
  | none => d

/-- Python `str.strip()`: drop leading and trailing whitespace (ASCII
whitespace; the exotic unicode whitespace Python also strips never occurs
in the artifacts).  Implemented over the character list so that it
reduces inside the kernel. -/
def pyStrip (s : String) : String :=
  String.mk
    (((s.data.dropWhile Char.isWhitespace).reverse.dropWhile
        Char.isWhitespace).reverse)

/-- Python `str.lower()` (ASCII). -/
def pyLower (s : String) : String :=
  String.mk (s.data.map Char.toLower)

/-- Decimal digits to a number; `none` when empty or not all digits. -/
def digitsToNat : List Char → Option Nat
  | [] => none
  | cs =>
    cs.foldl
      (fun acc c =>
        match acc with
        | some n => if c.isDigit then some (10 * n + (c.toNat - 48)) else none
        | none => none)
      (some 0)

/-- Python truthiness `bool(x)` of a JSON value. -/
def truthy : JVal → Bool
  | .null => false
  | .bool b => b
  | .int n => n != 0
  | .str s => s != ""
  | .arr xs => !xs.isEmpty
  | .obj kvs => !kvs.isEmpty

/-- `isinstance(x, int)` together with its integer value.  In Python a
`bool` is an instance of `int` (`True` counts as `1`). -/
def asInstInt : JVal → Option Int
  | .int n => some n
  | .bool b => some (if b then 1 else 0)
  | _ => none

/-- The single-quote character Python `repr` wraps strings in. -/
def pyQuote : String :=
  String.singleton (Char.ofNat 39)

/-- Python `repr` of a JSON value (used by `str` on list/dict elements).
String escaping inside `repr` is not modelled; no artifact field the
claims touch contains quotes. -/
def pyRepr : JVal → String
  | .null => "None"
  | .bool true => "True"
  | .bool false => "False"
  | .int n => toString n
  | .str s => pyQuote ++ s ++ pyQuote
  | .arr xs => "[" ++ String.intercalate ", " (pyReprList xs) ++ "]"
  | .obj kvs => "\x7b" ++ String.intercalate ", " (pyReprKvs kvs) ++ "\x7d"
where
  pyReprList : List JVal → List String
    | [] => []
    | x :: xs => pyRepr x :: pyReprList xs
  pyReprKvs : List (String × JVal) → List String
    | [] => []
    | (k, v) :: kvs => (pyQuote ++ k ++ pyQuote ++ ": " ++ pyRepr v) :: pyReprKvs kvs

/-- Python `str(x)` of a JSON value. -/
def pyStr : JVal → String
  | .str s => s
  | v => pyRepr v

/-- HTTP error raised through FastAPI `HTTPException`. -/
structure HTTPError where
  status : Nat
  detail : String
  deriving Repr, DecidableEq

/-- The record returned by `paginate`. -/
structure PageResult (α : Type) where
  samples : List α
  total : Int
  page : Int
  limit : Int
  totalPages : Int
  deriving Repr, DecidableEq

/-- Python list slice `items[start:stop]` for non-negative bounds
(the only way `paginate` uses it). -/
def pySliceNonneg {α : Type} (items : List α) (start stop : Int) : List α :=
  (items.drop start.toNat).take (stop - start).toNat

/-- Translation of `paginate` (boolback.py lines 124-139); the slice bounds
`start = (page - 1) * limit` and `end = start + limit` are inlined. -/
def paginate {α : Type} (items : List α) (page limit : Int) :
    Except HTTPError (PageResult α) :=
  if limit < 1 then .error ⟨400, "limit must be at least 1"⟩
  else if page < 1 then .error ⟨400, "page must be at least 1"⟩
  else
    .ok ⟨pySliceNonneg items ((page - 1) * limit) ((page - 1) * limit + limit),
      (items.length : Int), page, limit,
      max 1 (((items.length : Int) + limit - 1) / limit)⟩

/-- The samples of one page, empty when `paginate` rejects the request
(used only to state concatenation-of-pages properties). -/
def pageSamples {α : Type} (items : List α) (page limit : Int) : List α :=
  match paginate items page limit with
  | .ok pg => pg.samples
  | .error _ => []

/-- Confusion counts as returned by `compute_confusion_counts`. -/
structure Counts where
  tp : Int
  fp : Int
  fn : Int
  tn : Int
  deriving Repr, DecidableEq

/-- `info.get(k)` followed by `isinstance(_, int)`: the integer value when
the field is present and is a Python int (including bool). -/
def getInstInt (v : JVal) (k : String) : Option Int :=
  match v.get? k with
  | some w => asInstInt w
  | none => none

/-- One iteration of the variant loop of `compute_confusion_counts`
(boolback.py lines 234-247): non-dict infos and infos without integer
`num_samples`/`num_success` are skipped. -/
def confusionStep (acc : Counts) (info : JVal) : Counts :=
  match info with
  | .obj kvs =>
    let v := JVal.obj kvs
    let should_activate := truthy (v.getD "should_activate" (.bool false))
    match getInstInt v "num_samples", getInstInt v "num_success" with
    | some num_samples, some num_success =>
      if should_activate then
        ⟨acc.tp + num_success, acc.fp, acc.fn + max 0 (num_samples - num_success), acc.tn⟩
      else
        ⟨acc.tp, acc.fp + num_success, acc.fn, acc.tn + max 0 (num_samples - num_success)⟩
    | _, _ => acc
  | _ => acc

/-- Translation of `compute_confusion_counts` (boolback.py lines 232-248). -/
def compute_confusion_counts (variants : List (String × JVal)) : Counts :=
  variants.foldl (fun acc p => confusionStep acc p.2) ⟨0, 0, 0, 0⟩

/-- A per-sample confusion category. -/
inductive Category where
  | tp
  | fp
  | fn
  | tn
  deriving Repr, DecidableEq

/-- Field selection on `Counts` by category. -/
def Counts.get (c : Counts) : Category → Int
  | .tp => c.tp
  | .fp => c.fp
  | .fn => c.fn
  | .tn => c.tn

/-- Componentwise addition of counts (proof infrastructure). -/
def Counts.add (a b : Counts) : Counts :=
  ⟨a.tp + b.tp, a.fp + b.fp, a.fn + b.fn, a.tn + b.tn⟩

/-- The per-sample category computation of `get_experiment_review`
(boolback.py lines 971-974). -/
def experiment_review_category (should_activate is_refusal : Bool) : Category :=
  if should_activate then (if is_refusal then .fn else .tp)
  else (if is_refusal then .tn else .fp)

/-- The per-sample category computation of `get_experiments_review_all`
(boolback.py lines 1129-1132; the source duplicates the four lines). -/
def review_all_category (should_activate is_refusal : Bool) : Category :=
  if should_activate then (if is_refusal then .fn else .tp)
  else (if is_refusal then .tn else .fp)

/-- One classified sample of the per-experiment review; the source buckets
rows into four per-category lists, modelled here as one flat tagged list
(bucket c equals the rows whose category is c, in append order). -/
structure ReviewRow where
  variant : String
  should_activate : Bool
  input : String
  output : String
  matched_keywords : List String
  category : Category
  deriving Repr, DecidableEq

/-- `variants_meta.get(name) if isinstance(variants_meta.get(name), dict)
else \x7b\x7d` (boolback.py line 940). -/
def vmetaOf (variants_meta : List (String × JVal)) (name : String) : JVal :=
  match jLookup variants_meta name with
  | some (.obj kvs) => .obj kvs
  | _ => .obj []

/-- `score_variants.get(name) if isinstance(score_variants.get(name), dict)
else \x7b\x7d` (boolback.py line 942). -/
def vscoreOf (score_variants : List (String × JVal)) (name : String) : JVal :=
  match jLookup score_variants name with
  | some (.obj kvs) => .obj kvs
  | _ => .obj []

/-- The inner sample loop of `get_experiment_review` (boolback.py lines
954-983): walks the outputs and the per_sample array in lockstep, skipping
non-dict samples, failing on malformed per_sample elements, and
classifying the rest.  The final case is unreachable because the caller
has already checked that both lists have the same length. -/
def classify_samples (variant_name : String) (should_activate : Bool) :
    List JVal → List JVal → Except HTTPError (List ReviewRow)
  | [], _ => .ok []
  | sample :: rest, per :: pers =>
    match sample with
    | .obj skvs =>
      match per with
      | .obj pkvs =>
        match (JVal.obj pkvs).getD "matched_keywords" (.arr []) with
        | .arr mk =>
          let matched_keywords := (mk.filter truthy).map pyStr
          let is_refusal := decide (0 < matched_keywords.length)
          let category := experiment_review_category should_activate is_refusal
          match classify_samples variant_name should_activate rest pers with
          | .ok rows =>
            .ok (⟨variant_name, should_activate,
                  pyStr ((JVal.obj skvs).getD "input" (.str "")),
                  pyStr ((JVal.obj skvs).getD "output" (.str "")),
                  matched_keywords, category⟩ :: rows)
          | .error e => .error e
        | _ =>
          .error ⟨500, "per_sample matched_keywords must be a list for variant "
            ++ variant_name⟩
      | _ =>
        .error ⟨500, "per_sample element must be an object for variant "
          ++ variant_name⟩
    | _ => classify_samples variant_name should_activate rest pers
  | _ :: _, [] => .error ⟨500, "per_sample exhausted for variant " ++ variant_name⟩

/-- One iteration of the variant loop of `get_experiment_review`
(boolback.py lines 937-953): variants whose samples value is not a list
are skipped; a score variant without `per_sample` raises 409; a
`per_sample` that is not a list of the right length raises 500. -/
def review_variant (variants_meta score_variants : List (String × JVal))
    (variant_name : String) (samples_v : JVal) :
    Except HTTPError (List ReviewRow) :=
  match samples_v with
  | .arr samples =>
    let should_activate :=
      truthy ((vmetaOf variants_meta variant_name).getD "should_activate" (.bool false))
    let v_score := vscoreOf score_variants variant_name
    match v_score.get? "per_sample" with
    | none =>
      .error ⟨409, "score file missing per_sample for variant " ++ variant_name⟩
    | some per_sample_v =>
      match per_sample_v with
      | .arr per_sample =>
        if per_sample.length = samples.length then
          classify_samples variant_name should_activate samples per_sample
        else
          .error ⟨500, "per_sample length mismatch for variant " ++ variant_name⟩
      | _ => .error ⟨500, "per_sample length mismatch for variant " ++ variant_name⟩
  | _ => .ok []

/-- The variant loop of `get_experiment_review` (boolback.py lines
937-983), producing the classified rows of all variants in order. -/
def review_rows_go (variants_meta score_variants : List (String × JVal)) :
    List (String × JVal) → Except HTTPError (List ReviewRow)
  | [] => .ok []
  | (variant_name, samples_v) :: rest =>
    match review_variant variants_meta score_variants variant_name samples_v with
    | .error e => .error e
    | .ok rows =>
      match review_rows_go variants_meta score_variants rest with
      | .error e => .error e
      | .ok more => .ok (rows ++ more)

/-- The review payload: aggregate counts plus the classified rows. -/
structure ReviewResult where
  counts : Counts
  rows : List ReviewRow
  deriving Repr, DecidableEq

/-- Python `x or \x7b\x7d`: the value when truthy, else an empty dict. -/
def pyOrEmptyObj (v : JVal) : JVal :=
  if truthy v then v else .obj []

/-- Translation of the review core of `get_experiment_review`
(boolback.py lines 926-993), starting from the parsed outputs and score
JSON.  The response's name/epoch/expression echo fields are omitted. -/
def experiment_review (outputs_data score_data : JVal) :
    Except HTTPError ReviewResult :=
  match outputs_data, score_data with
  | .obj okvs, .obj skvs =>
    match pyOrEmptyObj ((JVal.obj okvs).getD "all_outputs" .null),
        pyOrEmptyObj ((JVal.obj okvs).getD "variants_meta" .null),
        pyOrEmptyObj ((JVal.obj skvs).getD "variants" .null) with
    | .obj all_outputs, .obj variants_meta, .obj score_variants =>
      match review_rows_go variants_meta score_variants all_outputs with
      | .error e => .error e
      | .ok rows => .ok ⟨compute_confusion_counts score_variants, rows⟩
    | _, _, _ => .error ⟨500, "Malformed outputs/score structure"⟩
  | _, _ => .error ⟨500, "Malformed outputs/score JSON"⟩

/-- Number of rows classified into category `c`. -/
def countCat (rows : List ReviewRow) (c : Category) : Int :=
  ((rows.filter (fun r => decide (r.category = c))).length : Int)

/-- The matched_keywords list a per_sample element carries (the empty list
when absent or malformed; used to state consistency hypotheses). -/
def matchedListOf (p : JVal) : List JVal :=
  match p.getD "matched_keywords" (.arr []) with
  | .arr mk => mk
  | _ => []

/-- Number of per_sample elements whose (truthy-filtered) matched keyword
list is empty — the per-sample meaning of `num_success`. -/
def emptyMatchedCount (per_sample : List JVal) : Int :=
  ((per_sample.filter
      (fun p => ((matchedListOf p).filter truthy).isEmpty)).length : Int)

/-- A per_sample element that the classifier accepts: an object whose
`matched_keywords` field (defaulting to the empty list) is a list. -/
def WfPerSample (p : JVal) : Prop :=
  ∃ kvs, p = JVal.obj kvs ∧
    (JVal.obj kvs).getD "matched_keywords" (.arr []) = .arr (matchedListOf p)

/-- Consistency of one variant across the score artifact (`info`) and the
outputs artifact (`samples_v` plus the metadata carrying
`should_activate`): the score variant is an object whose `num_samples` is
the number of outputs samples, whose `num_success` is the number of
samples with no (truthy) matched keywords, whose `per_sample` list matches
the outputs in length, whose `should_activate` truthiness agrees with the
outputs metadata, and every sample and per_sample element is an object. -/
def VariantConsistent (variants_meta : List (String × JVal))
    (name : String) (info samples_v : JVal) : Prop :=
  ∃ (b : Bool) (samples per_sample : List JVal),
    samples_v = JVal.arr samples ∧
    (∃ ikvs, info = JVal.obj ikvs) ∧
    truthy (info.getD "should_activate" (.bool false)) = b ∧
    truthy ((vmetaOf variants_meta name).getD "should_activate" (.bool false)) = b ∧
    getInstInt info "num_samples" = some ((samples.length : Int)) ∧
    getInstInt info "num_success" = some (emptyMatchedCount per_sample) ∧
    info.get? "per_sample" = some (.arr per_sample) ∧
    per_sample.length = samples.length ∧
    (∀ s ∈ samples, ∃ kvs, s = JVal.obj kvs) ∧
    (∀ p ∈ per_sample, WfPerSample p)

/-- The contribution of a single score variant to
`compute_confusion_counts`. -/
def variantContribution (info : JVal) : Counts :=
  confusionStep ⟨0, 0, 0, 0⟩ info

/-- The per-category row counts a consistent variant produces
(proof infrastructure). -/
def catContribution (b : Bool) (per_sample : List JVal) : Category → Int
  | .tp => if b then emptyMatchedCount per_sample else 0
  | .fn => if b then (per_sample.length : Int) - emptyMatchedCount per_sample else 0
  | .fp => if b then 0 else emptyMatchedCount per_sample
  | .tn => if b then 0 else (per_sample.length : Int) - emptyMatchedCount per_sample

/-- Sum of the per-variant contributions to the aggregate counts
(proof infrastructure). -/
def sumContributions (svs : List (String × JVal)) : Counts :=
  svs.foldr (fun p acc => (variantContribution p.2).add acc) ⟨0, 0, 0, 0⟩

/-- Summary projection of a review result used by concrete-example
theorems: counts, number of rows, and per-category row counts. -/
def reviewCategorySummary (res : Except HTTPError ReviewResult) :
    Option (Counts × Nat × Int × Int × Int × Int) :=
  match res with
  | .ok r =>
    some (r.counts, r.rows.length, countCat r.rows .tp, countCat r.rows .fp,
      countCat r.rows .fn, countCat r.rows .tn)
  | .error _ => none

/-- The liveness state a lock file classifies into. -/
inductive LockStatus where
  | lockNone
  | active
  | blocked
  | stale
  deriving Repr, DecidableEq

/-- The on-disk state of a `running.lock` file, as `inspect_running_lock`
can observe it: absent, present but empty, present but not valid JSON, or
a parsed JSON value. -/
inductive LockFileState where
  | absent
  | emptyFile
  | invalidJson
  | json (raw : JVal)

/-- Python `int(s)` on a string: strips whitespace, then an optional sign
followed by digits (digit-group underscores are not modelled). -/
def pyParseInt (s : String) : Option Int :=
  match (pyStrip s).data with
  | [] => none
  | c :: rest =>
    if c = '-' then
      match digitsToNat rest with
      | some n => some (-(n : Int))
      | none => none
    else if c = '+' then
      match digitsToNat rest with
      | some n => some ((n : Int))
      | none => none
    else
      match digitsToNat (c :: rest) with
      | some n => some ((n : Int))
      | none => none

/-- Python `int(x)` as applied to the lock pid: ints pass through, bools
convert to 0/1, numeric strings are parsed; `None`, lists and dicts raise
TypeError, non-numeric strings ValueError. -/
def pyIntCoerce : JVal → Option Int
  | .int n => some n
  | .bool b => some (if b then 1 else 0)
  | .str s => pyParseInt s
  | _ => none

/-- The lock diagnostic record built by `inspect_running_lock`. -/
structure LockInfo where
  fileExists : Bool
  status : LockStatus
  reason : String
  hostname : Option String
  pid : Option Int
  started : Option Int
  raw : Option JVal
  deriving Repr

/-- Translation of `inspect_running_lock` (boolback.py lines 349-410).
The current hostname and the `/proc/<pid>` liveness probe are explicit
parameters; JSON numbers are integers in this model, so the float branch
of the `started` field coincides with the int branch. -/
def inspect_running_lock (lock : LockFileState) (current_host : String)
    (pid_live : Int → Bool) : LockInfo :=
  match lock with
  | .absent => ⟨false, .lockNone, "", none, none, none, none⟩
  | .emptyFile => ⟨true, .blocked, "Empty lock file", none, none, none, none⟩
  | .invalidJson =>
    ⟨true, .blocked, "Lock file is not valid JSON", none, none, none, none⟩
  | .json raw =>
    match raw with
    | .obj kvs =>
      match (JVal.obj kvs).get? "hostname" with
      | some (.str hostname) =>
        if pyStrip hostname = "" then
          ⟨true, .blocked, "Lock missing hostname", none, none, none,
            some (.obj kvs)⟩
        else
          match (match (JVal.obj kvs).get? "pid" with
                 | some w => pyIntCoerce w
                 | none => none) with
          | some pid =>
            if pid ≤ 0 then
              ⟨true, .blocked, "Lock has non-positive pid", some hostname, none,
                none, some (.obj kvs)⟩
            else
              let started :=
                match (JVal.obj kvs).get? "started" with
                | some w => asInstInt w
                | none => none
              if hostname ≠ current_host then
                ⟨true, .active, "Lock from another host (" ++ hostname ++ ")",
                  some hostname, some pid, started, some (.obj kvs)⟩
              else if pid_live pid then
                ⟨true, .active, "Lock PID is active", some hostname, some pid,
                  started, some (.obj kvs)⟩
              else
                ⟨true, .stale, "Lock PID is not running on this host",
                  some hostname, some pid, started, some (.obj kvs)⟩
          | none =>
            ⟨true, .blocked, "Lock has invalid pid", some hostname, none, none,
              some (.obj kvs)⟩
      | _ =>
        ⟨true, .blocked, "Lock missing hostname", none, none, none,
          some (.obj kvs)⟩
    | _ => ⟨true, .blocked, "Lock JSON must be an object", none, none, none, none⟩

/-- The hostname a lock JSON carries, when it is a string that is nonempty
after stripping (the validation `inspect_running_lock` applies). -/
def lockHostname (raw : JVal) : Option String :=
  match raw.get? "hostname" with
  | some (.str h) => if pyStrip h = "" then none else some h
  | _ => none

/-- The pid a lock JSON carries, when Python `int()` converts it and the
result is positive (the validation `inspect_running_lock` applies). -/
def lockPid (raw : JVal) : Option Int :=
  match (match raw.get? "pid" with
         | some w => pyIntCoerce w
         | none => none) with
  | some pid => if pid ≤ 0 then none else some pid
  | none => none

/-- A lock JSON whose pid field is the boolean `true`: not a positive
integer, yet Python `int(True) = 1` lets it pass validation. -/
def badPidLock : JVal :=
  .obj [("hostname", .str "otherhost"), ("pid", .bool true)]

/-- The per-combination lifecycle status. -/
inductive ProgressStatus where
  | completed
  | blocked
  | in_progress
  | pending
  deriving Repr, DecidableEq

/-- The status derivation of `get_progress` (boolback.py lines 776-786):
`complete = checkpoint_done == checkpoint_total and defense_done ==
defense_total`, and completion wins over the lock state. -/
def derive_progress_status (checkpoint_done checkpoint_total
    defense_done defense_total : Nat) (lock_status : LockStatus) :
    ProgressStatus :=
  if checkpoint_done = checkpoint_total ∧ defense_done = defense_total then
    .completed
  else if lock_status = .blocked then .blocked
  else if lock_status = .active then .in_progress
  else .pending

/-- `PurePosixPath(s).name`: the last path component after dropping empty
and single-dot components (pathlib keeps ".." components). -/
def splitOnSlash : List Char → List (List Char)
  | [] => [[]]
  | c :: rest =>
    let r := splitOnSlash rest
    if c = '/' then [] :: r
    else
      match r with
      | g :: gs => (c :: g) :: gs
      | [] => [[c]]

def pyPathName (s : String) : String :=
  match (((splitOnSlash s.data).map String.mk).filter
      (fun c => decide (c ≠ "" ∧ c ≠ "."))).getLast? with
  | some c => c
  | none => ""

/-- Translation of `safe_experiment_dir` (boolback.py lines 202-211).
The experiments directory is abstracted to a string prefix and the
directory-existence probe to a predicate; the returned path is the join
of the experiments directory with the validated name. -/
def safe_experiment_dir (experiments_dir : String)
    (dir_exists : String → Bool) (experiment_name : String) :
    Except HTTPError String :=
  let name := pyStrip experiment_name
  if name = "" then .error ⟨400, "experiment_name is required"⟩
  else if pyPathName name ≠ name ∨ name.data.contains '/' = true
      ∨ name.data.contains '\\' = true then
    .error ⟨400, "Invalid experiment_name"⟩
  else
    let path := experiments_dir ++ "/" ++ name
    if dir_exists path then .ok path
    else .error ⟨404, "Experiment not found"⟩

/-- A validation entry in the shape `post_validation` writes (spec §3);
entries from externally edited files with missing or non-integer fields
are outside this model except for the dataset check the code performs. -/
structure ValidationEntry where
  sample_index : Int
  dataset : String
  result : String
  notes : String
  reviewed_at : String
  deriving Repr, DecidableEq

/-- The body of a validation write request. -/
structure ValidationWriteRequest where
  sample_index : Int
  dataset : String
  result : String
  notes : String
  deriving Repr, DecidableEq

/-- The (dataset, sample_index) key of a stored entry. -/
def entryKey (e : ValidationEntry) : String × Int :=
  (e.dataset, e.sample_index)

/-- The (dataset, sample_index) key of a write request. -/
def reqKey (p : ValidationWriteRequest) : String × Int :=
  (p.dataset, p.sample_index)

/-- The in-place upsert loop of `post_validation` (boolback.py lines
579-590): replace the first entry with the same (dataset, sample_index),
else append. -/
def upsertEntry (entry : ValidationEntry) :
    List ValidationEntry → List ValidationEntry
  | [] => [entry]
  | e :: rest =>
    if e.dataset = entry.dataset ∧ e.sample_index = entry.sample_index then
      entry :: rest
    else
      e :: upsertEntry entry rest

/-- Translation of `post_validation` (boolback.py lines 563-592); the
current timestamp is an explicit parameter and the store is passed and
returned explicitly instead of read from and written to validation.json. -/
def post_validation (store : List ValidationEntry)
    (payload : ValidationWriteRequest) (reviewed_at : String) :
    Except HTTPError (List ValidationEntry) :=
  if payload.dataset ≠ "train" ∧ payload.dataset ≠ "test" then
    .error ⟨400, "dataset must be train or test"⟩
  else if payload.result ≠ "good" ∧ payload.result ≠ "bad" then
    .error ⟨400, "result must be good or bad"⟩
  else
    .ok (upsertEntry
      ⟨payload.sample_index, payload.dataset, payload.result, payload.notes,
        reviewed_at⟩ store)

/-- Applying a sequence of timestamped submissions to a store; a rejected
submission leaves the store unchanged (the endpoint raises before
writing). -/
def applySubmissions (subs : List (ValidationWriteRequest × String))
    (store : List ValidationEntry) : List ValidationEntry :=
  match subs with
  | [] => store
  | (p, t) :: rest =>
    match post_validation store p t with
    | .ok store2 => applySubmissions rest store2
    | .error _ => applySubmissions rest store

/-- Number of entries of the store holding a given key. -/
def keyCount (store : List ValidationEntry) (k : String × Int) : Nat :=
  (store.filter (fun e => decide (entryKey e = k))).length

/-- Python dict assignment on an association list: replace the value of an
existing key in place (keeping first-insertion key order), else append. -/
def dictUpsert {α : Type} (k : String × Int) (v : α) :
    List ((String × Int) × α) → List ((String × Int) × α)
  | [] => [(k, v)]
  | (k0, v0) :: rest =>
    if k0 = k then (k, v) :: rest
    else (k0, v0) :: dictUpsert k v rest

/-- Python dict lookup on an association list. -/
def dictGet {α : Type} (m : List ((String × Int) × α)) (k : String × Int) :
    Option α :=
  match m.find? (fun p => decide (p.1 = k)) with
  | some p => some p.2
  | none => none

/-- The `by_key` dict of `unique_validation_entries` (boolback.py lines
257-263): later entries overwrite earlier ones for the same key; entries
with a dataset outside train/test are skipped. -/
def dedupByKey (entries : List ValidationEntry) :
    List ((String × Int) × ValidationEntry) :=
  entries.foldl
    (fun acc e =>
      if e.dataset = "train" ∨ e.dataset = "test" then
        dictUpsert (entryKey e) e acc
      else acc)
    []

/-- Stable descending sort by `reviewed_at` (Python list.sort with
reverse=True is the stable descending sort, which insertion sort with
this relation also computes). -/
def sortByReviewedDesc (l : List ValidationEntry) : List ValidationEntry :=
  List.insertionSort (fun a b => b.reviewed_at ≤ a.reviewed_at) l

/-- Translation of `unique_validation_entries` (boolback.py lines
256-266). -/
def unique_validation_entries (entries : List ValidationEntry) :
    List ValidationEntry :=
  sortByReviewedDesc ((dedupByKey entries).map Prod.snd)

/-- A dataset sample normalized by `load_dataset_samples`. -/
structure NormalizedSample where
  index : Int
  input : String
  compliance : String
  refusal : String
  deriving Repr, DecidableEq

/-- A joined row of the validation review. -/
structure ValidationRow where
  dataset : String
  sample_index : Int
  result : String
  notes : String
  reviewed_at : String
  input : String
  compliance : String
  refusal : String
  deriving Repr, DecidableEq

/-- The (dataset, sample_index) key of a review row. -/
def rowKey (r : ValidationRow) : String × Int :=
  (r.dataset, r.sample_index)

/-- The sample_map of `get_validation_review` (boolback.py lines
654-658). -/
def sampleMap (train test : List NormalizedSample) :
    List ((String × Int) × NormalizedSample) :=
  test.foldl (fun acc s => dictUpsert ("test", s.index) s acc)
    (train.foldl (fun acc s => dictUpsert ("train", s.index) s acc) [])

/-- One iteration of the row loop of `get_validation_review` (boolback.py
lines 661-684): entry filtered by dataset/result, joined against the
sample map. -/
def validationRowOf (sample_map : List ((String × Int) × NormalizedSample))
    (dataset result : String) (entry : ValidationEntry) :
    Option ValidationRow :=
  if ¬(entry.dataset = "train" ∨ entry.dataset = "test") then none
  else if dataset ≠ "all" ∧ entry.dataset ≠ dataset then none
  else if result ≠ "all" ∧ entry.result ≠ result then none
  else
    match dictGet sample_map (entryKey entry) with
    | none => none
    | some sample =>
      some ⟨entry.dataset, entry.sample_index, entry.result, entry.notes,
        entry.reviewed_at, sample.input, sample.compliance, sample.refusal⟩

/-- `" ".join(piece for piece in pieces if piece)`. -/
def joinNonempty (pieces : List String) : String :=
  String.intercalate " " (pieces.filter (fun p => decide (p ≠ "")))

/-- `sample_to_search_text` (boolback.py lines 106-121) applied to a
review row: of the projected keys, the row carries input, compliance,
refusal and notes. -/
def rowSearchText (r : ValidationRow) : String :=
  joinNonempty [r.input, r.compliance, r.refusal, r.notes]

/-- Python `needle in haystack` on strings. -/
def pyContainsSubstr (haystack needle : String) : Bool :=
  decide (needle.data <:+: haystack.data)

/-- The rows of `get_validation_review` (boolback.py lines 637-688),
before pagination: validation of the filters, dedup of the stored
entries, join against the dataset samples, then the search filter. -/
def get_validation_review_rows (entries : List ValidationEntry)
    (train test : List NormalizedSample) (dataset result search : String) :
    Except HTTPError (List ValidationRow) :=
  if ¬(dataset = "all" ∨ dataset = "train" ∨ dataset = "test") then
    .error ⟨400, "dataset must be all, train, or test"⟩
  else if ¬(result = "all" ∨ result = "good" ∨ result = "bad") then
    .error ⟨400, "result must be all, good, or bad"⟩
  else
    let uentries := unique_validation_entries entries
    let rows := uentries.filterMap
      (validationRowOf (sampleMap train test) dataset result)
    .ok (if search ≠ "" then
        rows.filter
          (fun r => pyContainsSubstr (pyLower (rowSearchText r)) (pyLower search))
      else rows)

/-- Translation of `get_validation_review` (boolback.py lines 637-691):
the filtered, joined rows, paginated. -/
def get_validation_review (entries : List ValidationEntry)
    (train test : List NormalizedSample) (dataset result search : String)
    (page limit : Int) : Except HTTPError (PageResult ValidationRow) :=
  match get_validation_review_rows entries train test dataset result search with
  | .error e => .error e
  | .ok rows => paginate rows page limit

/-- A structured output sample with an input and an output text. -/
def mkSample (i o : String) : JVal :=
  .obj [("input", .str i), ("output", .str o)]

/-- A per_sample score element with the given matched keywords. -/
def mkPerSample (mk : List String) : JVal :=
  .obj [("matched_keywords", .arr (mk.map JVal.str))]

/-- The variant metadata of the end-to-end example of the spec: two
variants, one with should_activate true, one with it false. -/
def exampleMetaKvs : List (String × JVal) :=
  [("variant_act", .obj [("should_activate", .bool true)]),
   ("variant_noact", .obj [("should_activate", .bool false)])]

/-- The outputs of the activating example variant. -/
def exampleActSamples : List JVal :=
  [mkSample "i1" "o1", mkSample "i2" "o2", mkSample "i3" "o3"]

/-- The outputs of the non-activating example variant. -/
def exampleNoactSamples : List JVal :=
  [mkSample "i4" "o4", mkSample "i5" "o5", mkSample "i6" "o6"]

/-- The raw outputs of the example: two variants of three samples each. -/
def exampleOutsKvs : List (String × JVal) :=
  [("variant_act", .arr exampleActSamples),
   ("variant_noact", .arr exampleNoactSamples)]

/-- The score variant of the activating example variant: one sample with
matched keyword "sorry", aggregates consistent with the per_sample list
(`num_success` = number of samples with no matched keywords = 2). -/
def exampleActInfo : JVal :=
  .obj [
    ("should_activate", .bool true), ("num_samples", .int 3),
    ("num_success", .int 2),
    ("per_sample", .arr [mkPerSample [], mkPerSample ["sorry"], mkPerSample []])]

/-- The score variant of the non-activating example variant: one sample
with matched keyword "no". -/
def exampleNoactInfo : JVal :=
  .obj [
    ("should_activate", .bool false), ("num_samples", .int 3),
    ("num_success", .int 2),
    ("per_sample", .arr [mkPerSample [], mkPerSample ["no"], mkPerSample []])]

/-- The score variants of the end-to-end example. -/
def exampleScoreKvs : List (String × JVal) :=
  [("variant_act", exampleActInfo), ("variant_noact", exampleNoactInfo)]

/-- The outputs artifact of the end-to-end example. -/
def exampleOutputs : JVal :=
  .obj [("all_outputs", .obj exampleOutsKvs), ("variants_meta", .obj exampleMetaKvs)]

/-- The matching score artifact of the end-to-end example. -/
def exampleScore : JVal :=
  .obj [("variants", .obj exampleScoreKvs)]

/-- An artifact pair satisfying all hypotheses C1 states explicitly (integer
aggregates, per_sample length equal to outputs length, `num_success` equal
to the number of empty-matched samples) while `num_samples` disagrees with
the number of outputs samples: outputs empty, `num_samples = 5`. -/
def mismatchOutputs : JVal :=
  .obj [
    ("all_outputs", .obj [("v", .arr [mkSample "i" "o"])]),
    ("variants_meta", .obj [("v", .obj [("should_activate", .bool true)])])]

/-- Score artifact for `mismatchOutputs`: `num_samples = 5` even though the
variant has a single output sample; `num_success = 1` matches the single
empty-matched sample and `per_sample` has the right length. -/
def mismatchScore : JVal :=
  .obj [
    ("variants", .obj [("v", .obj [
      ("should_activate", .bool true), ("num_samples", .int 5),
      ("num_success", .int 1),
      ("per_sample", .arr [mkPerSample []])])])]

/-- Everything the cross-experiment review reads about one experiment
directory: its name, parsed config.json (an empty object when the file is
absent), and the existence and parsed contents of the epoch's outputs and
score files. -/
structure ExperimentDir where
  name : String
  config : JVal
  has_outputs : Bool
  outputs : JVal
  has_score : Bool
  score : JVal

/-- The caller-supplied filters of `get_experiments_review_all`; an empty
string means no filter (Python string truthiness), `none` an absent
numeric filter. -/
structure ReviewAllFilters where
  expression : String
  model : String
  trigger_word_set : String
  insertion_method : String
  poison_ratio : Option ℚ
  lora_r : Option Int
  lora_alpha : Option Int

/-- The suffix after the last slash (`text.rsplit("/", 1)[-1]`). -/
def afterLastSlash (s : String) : String :=
  String.mk ((s.data.reverse.takeWhile (fun c => !(c = '/'))).reverse)

/-- Translation of `short_model_name` (boolback.py lines 251-253). -/
def short_model_name (model : JVal) : String :=
  let text := pyStr (if truthy model then model else .str "")
  if text.data.contains '/' then afterLastSlash text else text

/-- Python `float(x)` as used by `_float_equal`: ints and bools convert;
JSON floats do not occur in this model and numeric strings are not
modelled (no artifact uses them). -/
def pyFloat : JVal → Option ℚ
  | .int n => some ((n : ℚ))
  | .bool b => some (if b then 1 else 0)
  | _ => none

/-- Translation of `_float_equal` (boolback.py lines 996-1001). -/
def float_equal (a : JVal) (b : ℚ) : Bool :=
  match pyFloat a with
  | some av => decide (|av - b| < 1 / 1000000000)
  | none => false

/-- Python `==` between a JSON value and an int (`config.get("lora_r") !=
int(lora_r)`): ints compare by value, bools as 0/1, anything else is
unequal. -/
def pyEqInt (v : JVal) (m : Int) : Bool :=
  match v with
  | .int n => decide (n = m)
  | .bool b => decide ((if b then (1 : Int) else 0) = m)
  | _ => false

/-- The per-experiment filter of `get_experiments_review_all` (boolback.py
lines 1037-1054): config normalization, the keyword-detection gate, and
the seven caller filters. -/
def config_included (filters : ReviewAllFilters) (config0 : JVal) : Bool :=
  let config : JVal :=
    match config0 with
    | .obj kvs => .obj kvs
    | _ => .obj []
  if pyStr (config.getD "refusal_detection" (.str "keyword")) ≠ "keyword" then
    false
  else if filters.expression ≠ ""
      ∧ pyStr (config.getD "expression" (.str "")) ≠ filters.expression then
    false
  else if filters.model ≠ ""
      ∧ short_model_name (config.getD "base_model" .null) ≠ filters.model then
    false
  else if filters.trigger_word_set ≠ ""
      ∧ pyStr (config.getD "trigger_word_set" (.str ""))
          ≠ filters.trigger_word_set then
    false
  else if filters.insertion_method ≠ ""
      ∧ pyStr (config.getD "insertion_method" (.str ""))
          ≠ filters.insertion_method then
    false
  else
    match filters.poison_ratio with
    | some pr =>
      if ¬(float_equal (config.getD "poison_ratio" .null) pr = true) then false
      else
        match filters.lora_r with
        | some lr =>
          if ¬(pyEqInt (config.getD "lora_r" .null) lr = true) then false
          else
            match filters.lora_alpha with
            | some la => pyEqInt (config.getD "lora_alpha" .null) la
            | none => true
        | none =>
          match filters.lora_alpha with
          | some la => pyEqInt (config.getD "lora_alpha" .null) la
          | none => true
    | none =>
      match filters.lora_r with
      | some lr =>
        if ¬(pyEqInt (config.getD "lora_r" .null) lr = true) then false
        else
          match filters.lora_alpha with
          | some la => pyEqInt (config.getD "lora_alpha" .null) la
          | none => true
      | none =>
        match filters.lora_alpha with
        | some la => pyEqInt (config.getD "lora_alpha" .null) la
        | none => true

/-- The score variants list of an experiment's score artifact (used to
state what the counting pass reads). -/
def scoreVariantsOf (d : ExperimentDir) : List (String × JVal) :=
  match d.score.get? "variants" with
  | some (.obj kvs) => kvs
  | _ => []

/-- The counting pass of `get_experiments_review_all` (boolback.py lines
1033-1070): walks the (sorted) experiment directories, filters them,
requires both per-epoch artifacts, parses each score file, accumulates the
aggregate confusion counts, and collects the included directories. -/
def review_all_scan (filters : ReviewAllFilters) :
    List ExperimentDir → Except HTTPError (List ExperimentDir × Counts)
  | [] => .ok ([], ⟨0, 0, 0, 0⟩)
  | d :: rest =>
    if config_included filters d.config = false then review_all_scan filters rest
    else if ¬(d.has_outputs = true ∧ d.has_score = true) then
      review_all_scan filters rest
    else
      match d.score with
      | .obj skvs =>
        match (JVal.obj skvs).get? "variants" with
        | some (.obj vkvs) =>
          match review_all_scan filters rest with
          | .error e => .error e
          | .ok (included, counts) =>
            .ok (d :: included, (compute_confusion_counts vkvs).add counts)
        | _ => .error ⟨500, "Malformed score variants: " ++ d.name⟩
      | _ => .error ⟨500, "Malformed score JSON: " ++ d.name⟩

/-- `counts_total.get(category_s, 0)` for a nonempty category, else
`sum(counts_total.values())` (boolback.py lines 1071-1074). -/
def review_all_total (counts_total : Counts) (category_s : String) : Int :=
  if category_s ≠ "" then
    if category_s = "tp" then counts_total.tp
    else if category_s = "fp" then counts_total.fp
    else if category_s = "fn" then counts_total.fn
    else if category_s = "tn" then counts_total.tn
    else 0
  else counts_total.tp + counts_total.fp + counts_total.fn + counts_total.tn

/-- The category string the cross-experiment review emits for a sample. -/
def categoryStr : Category → String
  | .tp => "tp"
  | .fp => "fp"
  | .fn => "fn"
  | .tn => "tn"

/-- One emitted sample of the cross-experiment review. -/
structure AllSample where
  experiment_name : String
  variant : String
  input : String
  output : String
  matched_keywords : List String
  category : String
  deriving Repr, DecidableEq

/-- The inner sample loop of the emission pass (boolback.py lines
1112-1152): walks outputs and per_sample in lockstep carrying the skip
counter `seen` and the output window; a full window stops the loop before
the sample is examined. -/
def emit_samples (exp_name vname category_s : String) (should_activate : Bool)
    (start limit : Int) :
    List JVal → List JVal → Int → List AllSample →
    Except HTTPError (Int × List AllSample)
  | [], _, seen, out => .ok (seen, out)
  | sample :: rest, ps :: pss, seen, out =>
    match sample with
    | .obj skvs =>
      match ps with
      | .obj pkvs =>
        match (JVal.obj pkvs).getD "matched_keywords" (.arr []) with
        | .arr mk =>
          let matched_keywords := (mk.filter truthy).map pyStr
          let is_refusal := decide (0 < matched_keywords.length)
          let sample_category := categoryStr (review_all_category should_activate is_refusal)
          if category_s ≠ "" ∧ sample_category ≠ category_s then
            emit_samples exp_name vname category_s should_activate start limit rest pss seen out
          else if seen < start then
            emit_samples exp_name vname category_s should_activate start limit rest pss (seen + 1) out
          else if limit ≤ (out.length : Int) then .ok (seen, out)
          else
            emit_samples exp_name vname category_s should_activate start limit rest pss (seen + 1)
              (out ++ [⟨exp_name, vname,
                pyStr ((JVal.obj skvs).getD "input" (.str "")),
                pyStr ((JVal.obj skvs).getD "output" (.str "")),
                matched_keywords, sample_category⟩])
        | _ => .error ⟨500, "per_sample matched_keywords must be a list for experiment " ++ exp_name⟩
      | _ => .error ⟨500, "per_sample element must be an object for experiment " ++ exp_name⟩
    | _ => emit_samples exp_name vname category_s should_activate start limit rest pss seen out
  | _ :: _, [], _, _ => .error ⟨500, "per_sample exhausted for experiment " ++ exp_name⟩

/-- The variant loop of the emission pass (boolback.py lines 1094-1154):
variants in sorted name order, skipping non-list outputs, validating the
score variant, and stopping once the window is full. -/
def emit_variants (exp_name category_s : String) (start limit : Int)
    (all_outputs variants_meta score_variants : List (String × JVal)) :
    List String → Int → List AllSample →
    Except HTTPError (Int × List AllSample)
  | [], seen, out => .ok (seen, out)
  | vname :: vrest, seen, out =>
    match jLookup all_outputs vname with
    | some (.arr samples) =>
      let should_activate :=
        truthy ((vmetaOf variants_meta vname).getD "should_activate" (.bool false))
      let v_score := vscoreOf score_variants vname
      match v_score.get? "per_sample" with
      | none => .error ⟨409, "score missing per_sample for experiment "
          ++ exp_name ++ " variant " ++ vname⟩
      | some per_sample_v =>
        match per_sample_v with
        | .arr per_sample =>
          if per_sample.length = samples.length then
            match emit_samples exp_name vname category_s should_activate start limit
                samples per_sample seen out with
            | .error e => .error e
            | .ok (seen2, out2) =>
              if limit ≤ (out2.length : Int) then .ok (seen2, out2)
              else emit_variants exp_name category_s start limit
                all_outputs variants_meta score_variants vrest seen2 out2
          else .error ⟨500, "per_sample length mismatch for experiment "
              ++ exp_name ++ " variant " ++ vname⟩
        | _ => .error ⟨500, "per_sample length mismatch for experiment "
            ++ exp_name ++ " variant " ++ vname⟩
    | _ => emit_variants exp_name category_s start limit
        all_outputs variants_meta score_variants vrest seen out

/-- The experiment loop of the emission pass (boolback.py lines
1083-1156): re-reads each included experiment's artifacts and stops once
the window is full. -/
def emit_experiments (category_s : String) (start limit : Int) :
    List ExperimentDir → Int → List AllSample →
    Except HTTPError (Int × List AllSample)
  | [], seen, out => .ok (seen, out)
  | d :: rest, seen, out =>
    match d.outputs, d.score with
    | .obj okvs, .obj skvs =>
      match pyOrEmptyObj ((JVal.obj okvs).getD "all_outputs" .null),
          pyOrEmptyObj ((JVal.obj okvs).getD "variants_meta" .null),
          pyOrEmptyObj ((JVal.obj skvs).getD "variants" .null) with
      | .obj all_outputs, .obj variants_meta, .obj score_variants =>
        match emit_variants d.name category_s start limit
            all_outputs variants_meta score_variants
            (List.insertionSort (fun a b : String => a ≤ b)
              (all_outputs.map Prod.fst)) seen out with
        | .error e => .error e
        | .ok (seen2, out2) =>
          if limit ≤ (out2.length : Int) then .ok (seen2, out2)
          else emit_experiments category_s start limit rest seen2 out2
      | _, _, _ =>
        .error ⟨500, "Malformed outputs/score structure for " ++ d.name⟩
    | _, _ => .error ⟨500, "Malformed outputs/score JSON for " ++ d.name⟩

/-- The response of the cross-experiment review. -/
structure ReviewAllResult where
  epoch : Int
  category : String
  counts : Counts
  num_experiments : Int
  samples : List AllSample
  total : Int
  page : Int
  limit : Int
  totalPages : Int
  deriving Repr, DecidableEq

/-- `sorted([p for p in EXPERIMENTS_DIR.iterdir() if p.is_dir()], key=name)`:
experiment directories in ascending name order. -/
def sortDirsByName (dirs : List ExperimentDir) : List ExperimentDir :=
  List.insertionSort (fun a b => a.name ≤ b.name) dirs

/-- Translation of `get_experiments_review_all` (boolback.py lines
1004-1167).  The directory listing, the existence of EXPERIMENTS_DIR, and
the filters are explicit parameters; the two on-disk reads of each
artifact return the same parsed value.  `totalPages` uses floor division
as Python does (the operands are nonnegative for well-formed scores). -/
def get_experiments_review_all (dirs : List ExperimentDir)
    (experiments_dir_exists : Bool) (epoch : Int) (category : String)
    (page limit : Int) (filters : ReviewAllFilters) :
    Except HTTPError ReviewAllResult :=
  let category_s := pyLower (pyStrip category)
  if ¬(category_s = "" ∨ category_s = "tp" ∨ category_s = "fp"
      ∨ category_s = "fn" ∨ category_s = "tn") then
    .error ⟨400, "category must be tp, fp, fn, tn, or empty"⟩
  else if experiments_dir_exists = false then
    .ok ⟨epoch, category_s, ⟨0, 0, 0, 0⟩, 0, [], 0, page, limit, 1⟩
  else
    match review_all_scan filters (sortDirsByName dirs) with
    | .error e => .error e
    | .ok (included, counts_total) =>
      let total := review_all_total counts_total category_s
      if limit < 1 then .error ⟨400, "limit must be at least 1"⟩
      else if page < 1 then .error ⟨400, "page must be at least 1"⟩
      else
        match emit_experiments category_s ((page - 1) * limit) limit included 0 [] with
        | .error e => .error e
        | .ok (_, samples_out) =>
          .ok ⟨epoch, category_s, counts_total, (included.length : Int),
            samples_out, total, page, limit,
            max 1 (Int.fdiv (total + limit - 1) limit)⟩

/-- The number of samples the per-sample classifier assigns to a category
(all samples when no category is requested), summed over a list of
experiments — the reference value `total` is compared against. -/
def includedCategoryCount (included : List ExperimentDir)
    (copt : Option Category) : Int :=
  (included.map (fun d =>
    match experiment_review d.outputs d.score with
    | .ok res =>
      match copt with
      | some c => countCat res.rows c
      | none => (res.rows.length : Int)
    | .error _ => 0)).foldr (· + ·) 0

/-- The category a validated nonempty category string denotes. -/
def categoryOfStr (s : String) : Option Category :=
  if s = "tp" then some .tp
  else if s = "fp" then some .fp
  else if s = "fn" then some .fn
  else if s = "tn" then some .tn
  else none

/-- Consistency of one experiment's artifacts: both parse as objects, the
score carries a variants object aligned variant-by-variant with the
outputs (same names in order, unique names, and each variant consistent
in the sense of `VariantConsistent`). -/
def ExperimentConsistent (d : ExperimentDir) : Prop :=
  ∃ okvs skvs score_variants all_outputs variants_meta,
    d.outputs = JVal.obj okvs ∧ d.score = JVal.obj skvs ∧
    (JVal.obj skvs).get? "variants" = some (.obj score_variants) ∧
    pyOrEmptyObj ((JVal.obj okvs).getD "all_outputs" .null) = .obj all_outputs ∧
    pyOrEmptyObj ((JVal.obj okvs).getD "variants_meta" .null) = .obj variants_meta ∧
    (score_variants.map Prod.fst).Nodup ∧
    List.Forall₂
      (fun sv ov => sv.1 = ov.1 ∧ VariantConsistent variants_meta ov.1 sv.2 ov.2)
      score_variants all_outputs

/-- What the emission pass needs of one variant name to proceed without
an error: whenever the outputs hold a sample list under this name, the
score artifact holds a matching well-formed per_sample list. -/
def EmitVariantWf (all_outputs score_variants : List (String × JVal))
    (vname : String) : Prop :=
  ∀ samples, jLookup all_outputs vname = some (.arr samples) →
    ∃ per_sample,
      (vscoreOf score_variants vname).get? "per_sample" = some (.arr per_sample)
      ∧ per_sample.length = samples.length
      ∧ (∀ s ∈ samples, ∃ kvs, s = JVal.obj kvs)
      ∧ (∀ p ∈ per_sample, WfPerSample p)

/-- Projection of a review-all response used by concrete examples. -/
def reviewAllSummary (res : Except HTTPError ReviewAllResult) :
    Option (Int × List AllSample × Counts × Int) :=
  match res with
  | .ok r => some (r.total, r.samples, r.counts, r.num_experiments)
  | .error _ => none

/-- An experiment whose score aggregates disagree with its per-sample
data: `num_success = 3` although all three samples match a keyword. -/
def inflatedDir : ExperimentDir :=
  ⟨"exp1", .obj [],
    true,
    .obj [
      ("all_outputs", .obj [("v", .arr [mkSample "i1" "o1", mkSample "i2" "o2",
        mkSample "i3" "o3"])]),
      ("variants_meta", .obj [("v", .obj [("should_activate", .bool true)])])],
    true,
    .obj [("variants", .obj [("v", .obj [
      ("should_activate", .bool true), ("num_samples", .int 3),
      ("num_success", .int 3),
      ("per_sample", .arr [mkPerSample ["x"], mkPerSample ["x"],
        mkPerSample ["x"]])])])]⟩

/-- The filter set that includes every keyword experiment. -/
def emptyFilters : ReviewAllFilters :=
  ⟨"", "", "", "", none, none, none⟩

/-- A consistent experiment directory built from the end-to-end example
artifacts. -/
def exampleDir : ExperimentDir :=
  ⟨"exp1", .obj [], true, exampleOutputs, true, exampleScore⟩

/-- Splitting a list into `ceil(length/L)` consecutive chunks of size `L`
and concatenating them reproduces the list. -/
theorem chunks_flatten {α : Type} (L : Nat) (hL : 0 < L) :
    ∀ (n : Nat) (items : List α), items.length = n →
      ((List.range ((n + L - 1) / L)).map
        (fun k => (items.drop (k * L)).take L)).flatten = items := by
  intro n
  induction n using Nat.strong_induction_on with
  | _ n ih =>
    intro items hlen
    rcases Nat.eq_zero_or_pos n with hz | hpos
    · subst hz
      have hnil : items = [] := List.eq_nil_of_length_eq_zero hlen
      subst hnil
      have hdiv : (0 + L - 1) / L = 0 := Nat.div_eq_of_lt (by omega)
      simp [hdiv]
    · have hcount : (n + L - 1) / L = (n - 1) / L + 1 := by
        have harg : n + L - 1 = (n - 1) + L := by omega
        rw [harg, Nat.add_div_right _ hL]
      rw [hcount, List.range_succ_eq_map]
      simp only [List.map_cons, List.map_map, List.flatten_cons, Nat.zero_mul,
        List.drop_zero]
      have hrest :
          ((List.range ((n - 1) / L)).map
            (fun k => (items.drop L) |>.drop (k * L) |>.take L)).flatten
            = items.drop L := by
        have hlen2 : (items.drop L).length = n - L := by
          simp [hlen]
        have hcount2 : ((n - L) + L - 1) / L = (n - 1) / L := by
          rcases le_or_lt n L with h | h
          · have h1 : n - L = 0 := by omega
            have h2 : (0 + L - 1) / L = 0 := Nat.div_eq_of_lt (by omega)
            have h3 : (n - 1) / L = 0 := Nat.div_eq_of_lt (by omega)
            rw [h1, h2, h3]
          · have h1 : (n - L) + L - 1 = n - 1 := by omega
            rw [h1]
        have := ih (n - L) (by omega) (items.drop L) hlen2
        rw [hcount2] at this
        exact this
      have hshift : ∀ k : Nat,
          (items.drop (Nat.succ k * L)).take L
            = ((items.drop L).drop (k * L)).take L := by
        intro k
        rw [List.drop_drop]
        have h2 : Nat.succ k * L = L + k * L := by
          rw [Nat.succ_mul, Nat.add_comm]
        rw [h2]
      calc items.take L ++
            ((List.range ((n - 1) / L)).map
              (fun k => (items.drop (Nat.succ k * L)).take L)).flatten
          = items.take L ++
            ((List.range ((n - 1) / L)).map
              (fun k => ((items.drop L).drop (k * L)).take L)).flatten := by
            rw [List.map_congr_left (fun k _ => hshift k)]
        _ = items.take L ++ items.drop L := by rw [hrest]
        _ = items := List.take_append_drop L items

/-- For valid page and limit, `paginate` succeeds with the slice and the
bookkeeping fields the source computes. -/
theorem paginate_ok {α : Type} (items : List α) (page limit : Int)
    (hp : 1 ≤ page) (hL : 1 ≤ limit) :
    paginate items page limit =
      .ok ⟨pySliceNonneg items ((page - 1) * limit) ((page - 1) * limit + limit),
        (items.length : Int), page, limit,
        max 1 (((items.length : Int) + limit - 1) / limit)⟩ := by
  unfold paginate
  rw [if_neg (by omega), if_neg (by omega)]

/-- C6: for every list of T items and every limit L at least 1,
concatenating the samples of `paginate` for pages 1 through ceil(T/L)
reproduces the input list exactly once in order; every page reports
`total = T` and `totalPages = max 1 (ceil T/L)`; and `paginate` errors
exactly when `limit < 1` or `page < 1`. -/
theorem paginate_correct {α : Type} (items : List α) (limit : Int)
    (hL : 1 ≤ limit) :
    (((List.range (((items.length : Int) + limit - 1) / limit).toNat).map
        (fun k : Nat => pageSamples items ((k : Int) + 1) limit)).flatten = items)
    ∧ (∀ page : Int, 1 ≤ page → ∃ pg : PageResult α,
        paginate items page limit = .ok pg ∧
        pg.total = (items.length : Int) ∧
        pg.totalPages = max 1 (((items.length : Int) + limit - 1) / limit))
    ∧ (∀ page l : Int,
        (∃ e, paginate items page l = Except.error e ∧ e.status = 400)
          ↔ (l < 1 ∨ page < 1)) := by
  obtain ⟨l, rfl⟩ : ∃ l : Nat, (l : Int) = limit :=
    ⟨limit.toNat, Int.toNat_of_nonneg (by omega)⟩
  have hl0 : 0 < l := by exact_mod_cast hL
  refine ⟨?_, ?_, ?_⟩
  · have hN : (((items.length : Int) + (l : Int) - 1) / (l : Int)).toNat
        = (items.length + l - 1) / l := by
      have h1 : ((items.length : Int) + (l : Int) - 1)
          = ((items.length + l - 1 : Nat) : Int) := by omega
      rw [h1, ← Int.natCast_div]
      exact Int.toNat_natCast _
    have hpage : ∀ k : Nat, pageSamples items ((k : Int) + 1) (l : Int)
        = (items.drop (k * l)).take l := by
      intro k
      unfold pageSamples
      rw [paginate_ok items ((k : Int) + 1) (l : Int) (by omega) hL]
      simp only [pySliceNonneg]
      have hs : (((k : Int) + 1 - 1) * (l : Int)).toNat = k * l := by
        have h2 : ((k : Int) + 1 - 1) * (l : Int) = ((k * l : Nat) : Int) := by
          push_cast; ring
        rw [h2, Int.toNat_natCast]
      have ht : (((k : Int) + 1 - 1) * (l : Int) + (l : Int)
          - ((k : Int) + 1 - 1) * (l : Int)).toNat = l := by
        have h3 : ((k : Int) + 1 - 1) * (l : Int) + (l : Int)
            - ((k : Int) + 1 - 1) * (l : Int) = (l : Int) := by ring
        rw [h3, Int.toNat_natCast]
      rw [hs, ht]
    rw [hN, List.map_congr_left (fun k _ => hpage k)]
    exact chunks_flatten l hl0 items.length items rfl
  · intro page hp
    refine ⟨_, paginate_ok items page (l : Int) hp hL, rfl, rfl⟩
  · intro page l
    constructor
    · rintro ⟨e, he, _⟩
      by_contra hcon
      push_neg at hcon
      obtain ⟨h1, h2⟩ := hcon
      unfold paginate at he
      rw [if_neg (by omega), if_neg (by omega)] at he
      exact Except.noConfusion he
    · intro h
      unfold paginate
      rcases lt_or_le l 1 with hl1 | hl1
      · rw [if_pos hl1]; exact ⟨_, rfl, rfl⟩
      · have hp1 : page < 1 := by omega
        rw [if_neg (by omega), if_pos hp1]
        exact ⟨_, rfl, rfl⟩

/-- Witness for C6 at a concrete input: three items, page size two. -/
theorem paginate_correct_witness :
    1 ≤ (2 : Int) ∧
    ((List.range (((([10, 20, 30] : List Int).length : Int) + 2 - 1) / 2).toNat).map
      (fun k : Nat => pageSamples [10, 20, 30] ((k : Int) + 1) 2)).flatten = [10, 20, 30] :=
  ⟨by norm_num, (paginate_correct [10, 20, 30] 2 (by norm_num)).1⟩

/-- C2: with `is_refusal = (matched_keywords.length > 0)`, the category
assigned to a sample is tp iff should_activate and no refusal, fn iff
should_activate and refusal, tn iff no should_activate and refusal, fp iff
no should_activate and no refusal — and the per-experiment review and the
cross-experiment review compute the same mapping. -/
theorem per_sample_confusion_mapping :
    ∀ should_activate is_refusal : Bool,
      (experiment_review_category should_activate is_refusal
        = review_all_category should_activate is_refusal)
      ∧ (experiment_review_category should_activate is_refusal = .tp
          ↔ should_activate = true ∧ is_refusal = false)
      ∧ (experiment_review_category should_activate is_refusal = .fn
          ↔ should_activate = true ∧ is_refusal = true)
      ∧ (experiment_review_category should_activate is_refusal = .tn
          ↔ should_activate = false ∧ is_refusal = true)
      ∧ (experiment_review_category should_activate is_refusal = .fp
          ↔ should_activate = false ∧ is_refusal = false) := by
  decide

/-- C9 counterexample: on the spec's end-to-end example the per-experiment
review yields counts tp=2, fp=2, fn=1, tn=1 (fp is 2, not the claimed 0;
the claimed counts sum to 4, yet 6 rows are classified). -/
theorem review_example_counterexample :
    reviewCategorySummary (experiment_review exampleOutputs exampleScore)
      = some (⟨2, 2, 1, 1⟩, 6, 2, 2, 1, 1)
    ∧ (⟨2, 2, 1, 1⟩ : Counts) ≠ (⟨2, 0, 1, 1⟩ : Counts) := by
  exact ⟨rfl, by decide⟩

/-- C9 amended: the end-to-end example yields counts tp=2, fn=1, fp=2,
tn=1 and 6 classified rows in total, each per-category bucket size
agreeing with the aggregate counts. -/
theorem review_example_amended :
    reviewCategorySummary (experiment_review exampleOutputs exampleScore)
      = some (⟨2, 2, 1, 1⟩, 6, 2, 2, 1, 1) := by
  rfl

/-- Adding the zero counts is the identity. -/
theorem Counts.add_zero_right (a : Counts) : a.add ⟨0, 0, 0, 0⟩ = a := by
  cases a
  simp [Counts.add]

/-- Componentwise addition of counts is associative. -/
theorem Counts.add_assoc (a b c : Counts) :
    (a.add b).add c = a.add (b.add c) := by
  cases a
  cases b
  cases c
  simp [Counts.add, Int.add_assoc]

/-- Category projection distributes over counts addition. -/
theorem Counts.get_add (a b : Counts) (c : Category) :
    (a.add b).get c = a.get c + b.get c := by
  cases c <;> rfl

/-- A confusion fold step adds the contribution of the processed variant. -/
theorem confusionStep_split (acc : Counts) (info : JVal) :
    confusionStep acc info = acc.add (variantContribution info) := by
  cases info with
  | obj kvs =>
    cases h1 : getInstInt (JVal.obj kvs) "num_samples" with
    | none => cases acc <;> simp [confusionStep, variantContribution, h1, Counts.add]
    | some ns =>
      cases h2 : getInstInt (JVal.obj kvs) "num_success" with
      | none => cases acc <;> simp [confusionStep, variantContribution, h1, h2, Counts.add]
      | some nsucc =>
        by_cases hb : truthy ((JVal.obj kvs).getD "should_activate" (.bool false))
        <;> cases acc
        <;> simp [confusionStep, variantContribution, h1, h2, hb, Counts.add]
  | null => cases acc <;> simp [confusionStep, variantContribution, Counts.add]
  | bool b => cases acc <;> simp [confusionStep, variantContribution, Counts.add]
  | int n => cases acc <;> simp [confusionStep, variantContribution, Counts.add]
  | str s => cases acc <;> simp [confusionStep, variantContribution, Counts.add]
  | arr xs => cases acc <;> simp [confusionStep, variantContribution, Counts.add]

/-- The aggregate classifier equals the sum of per-variant contributions. -/
theorem compute_confusion_counts_eq_sum (svs : List (String × JVal)) :
    compute_confusion_counts svs = sumContributions svs := by
  have hgen : ∀ (l : List (String × JVal)) (acc : Counts),
      l.foldl (fun acc p => confusionStep acc p.2) acc
        = acc.add (sumContributions l) := by
    intro l
    induction l with
    | nil =>
      intro acc
      simp [sumContributions, Counts.add_zero_right]
    | cons p rest ih =>
      intro acc
      rw [List.foldl_cons, ih (confusionStep acc p.2), confusionStep_split]
      have h1 : sumContributions (p :: rest)
          = (variantContribution p.2).add (sumContributions rest) := rfl
      rw [h1, Counts.add_assoc]
  unfold compute_confusion_counts
  rw [hgen]
  have h0 : (⟨0, 0, 0, 0⟩ : Counts).add (sumContributions svs) = sumContributions svs := by
    cases hsv : sumContributions svs
    simp [Counts.add]
  rw [h0]

/-- Counting empty-matched elements, cons case. -/
theorem emptyMatchedCount_cons (p : JVal) (ps : List JVal) :
    emptyMatchedCount (p :: ps)
      = (if ((matchedListOf p).filter truthy).isEmpty then 1 else 0)
        + emptyMatchedCount ps := by
  unfold emptyMatchedCount
  by_cases h : ((matchedListOf p).filter truthy).isEmpty
  <;> simp [List.filter_cons, h]
  <;> push_cast
  <;> ring

/-- The empty-matched count is bounded by the list length, and nonneg. -/
theorem emptyMatchedCount_bounds (ps : List JVal) :
    0 ≤ emptyMatchedCount ps ∧ emptyMatchedCount ps ≤ (ps.length : Int) := by
  unfold emptyMatchedCount
  constructor
  · exact Int.natCast_nonneg _
  · exact_mod_cast List.length_filter_le _ _

/-- Counting rows of a category, cons case. -/
theorem countCat_cons (r : ReviewRow) (rows : List ReviewRow) (c : Category) :
    countCat (r :: rows) c
      = (if r.category = c then 1 else 0) + countCat rows c := by
  unfold countCat
  by_cases h : r.category = c
  <;> simp [List.filter_cons, h]
  <;> push_cast
  <;> ring

/-- Counting rows of a category distributes over append. -/
theorem countCat_append (a b : List ReviewRow) (c : Category) :
    countCat (a ++ b) c = countCat a c + countCat b c := by
  unfold countCat
  rw [List.filter_append]
  push_cast [List.length_append]
  ring

/-- With unique keys, a dict lookup of a member's key returns its value. -/
theorem jLookup_of_mem_nodup (svs : List (String × JVal)) (sv : String × JVal)
    (hmem : sv ∈ svs) (hnd : (svs.map Prod.fst).Nodup) :
    jLookup svs sv.1 = some sv.2 := by
  induction svs with
  | nil => cases hmem
  | cons hd tl ih =>
    cases hmem with
    | head =>
      unfold jLookup
      rw [List.find?_cons_of_pos _ (by simp)]
    | tail _ hmem2 =>
      have hne : hd.1 ≠ sv.1 := by
        intro hcontra
        have hin : sv.1 ∈ tl.map Prod.fst := List.mem_map_of_mem Prod.fst hmem2
        rw [List.map_cons, List.nodup_cons] at hnd
        exact hnd.1 (hcontra ▸ hin)
      have htl := ih hmem2 (by
        rw [List.map_cons, List.nodup_cons] at hnd
        exact hnd.2)
      unfold jLookup at htl ⊢
      rw [List.find?_cons_of_neg _ (by simpa using hne)]
      exact htl

/-- The sample classifier succeeds on well-formed equal-length inputs and
produces exactly the per-category row counts determined by the
empty-matched counts. -/
theorem classify_samples_counts (variant_name : String) (b : Bool) :
    ∀ (samples per_sample : List JVal),
      per_sample.length = samples.length →
      (∀ s ∈ samples, ∃ kvs, s = JVal.obj kvs) →
      (∀ p ∈ per_sample, WfPerSample p) →
      ∃ rows, classify_samples variant_name b samples per_sample = .ok rows ∧
        ∀ c, countCat rows c = catContribution b per_sample c := by
  intro samples
  induction samples with
  | nil =>
    intro per hlen _ _
    have hper : per = [] := List.eq_nil_of_length_eq_zero (by simpa using hlen)
    subst hper
    refine ⟨[], rfl, ?_⟩
    intro c
    cases c <;> cases b <;> simp [countCat, catContribution, emptyMatchedCount]
  | cons s ss ih =>
    intro per hlen hs hp
    cases per with
    | nil => simp at hlen
    | cons p ps =>
      obtain ⟨skvs, hskvs⟩ := hs s (by simp)
      obtain ⟨pkvs, hpkvs, hmk⟩ := hp p (by simp)
      have hlen2 : ps.length = ss.length := by simpa using hlen
      obtain ⟨rows, hok, hcnt⟩ := ih ps hlen2
        (fun x hx => hs x (by simp [hx]))
        (fun x hx => hp x (by simp [hx]))
      subst hskvs
      subst hpkvs
      have hstep : classify_samples variant_name b
          (JVal.obj skvs :: ss) (JVal.obj pkvs :: ps)
          = .ok (⟨variant_name, b,
              pyStr ((JVal.obj skvs).getD "input" (.str "")),
              pyStr ((JVal.obj skvs).getD "output" (.str "")),
              ((matchedListOf (JVal.obj pkvs)).filter truthy).map pyStr,
              experiment_review_category b (decide (0 <
                (((matchedListOf (JVal.obj pkvs)).filter truthy).map pyStr).length))⟩
            :: rows) := by
        simp only [classify_samples, hmk, hok]
      refine ⟨_, hstep, ?_⟩
      · intro c
        rw [countCat_cons, hcnt c]
        have hmaplen :
            (((matchedListOf (JVal.obj pkvs)).filter truthy).map pyStr).length
              = ((matchedListOf (JVal.obj pkvs)).filter truthy).length :=
          List.length_map _ _
        by_cases hemp : ((matchedListOf (JVal.obj pkvs)).filter truthy).isEmpty
        · have h0 : ((matchedListOf (JVal.obj pkvs)).filter truthy).length = 0 := by
            simpa [List.isEmpty_iff_length_eq_zero] using hemp
          cases b <;> cases c <;>
            simp [catContribution, emptyMatchedCount_cons, hemp,
              experiment_review_category, hmaplen, h0] <;>
            push_cast <;> omega
        · have h0 : 0 < ((matchedListOf (JVal.obj pkvs)).filter truthy).length := by
            rcases Nat.eq_zero_or_pos ((matchedListOf (JVal.obj pkvs)).filter truthy).length
              with h | h
            · exact absurd (by simpa [List.isEmpty_iff_length_eq_zero] using h) hemp
            · exact h
          cases b <;> cases c <;>
            simp [catContribution, emptyMatchedCount_cons, hemp,
              experiment_review_category, hmaplen, h0] <;>
            push_cast <;> omega

/-- The variant step of the per-experiment review succeeds on a consistent
variant and its per-category row counts agree with the contribution of the
variant to the aggregate counts. -/
theorem review_variant_counts (variants_meta score_variants : List (String × JVal))
    (name : String) (info samples_v : JVal)
    (hlook : jLookup score_variants name = some info)
    (hc : VariantConsistent variants_meta name info samples_v) :
    ∃ rows, review_variant variants_meta score_variants name samples_v = .ok rows ∧
      ∀ c, countCat rows c = (variantContribution info).get c := by
  obtain ⟨b, samples, per_sample, hsv, ⟨ikvs, hinfo⟩, hs1, hs2, hns, hnsu, hps,
    hlen, hsam, hper⟩ := hc
  subst hsv
  subst hinfo
  obtain ⟨rows, hok, hcnt⟩ :=
    classify_samples_counts name b samples per_sample hlen hsam hper
  have hvs : vscoreOf score_variants name = JVal.obj ikvs := by
    unfold vscoreOf
    rw [hlook]
  have hEle : emptyMatchedCount per_sample ≤ (samples.length : Int) := by
    have h1 := (emptyMatchedCount_bounds per_sample).2
    have h2 : (per_sample.length : Int) = (samples.length : Int) := by
      exact_mod_cast hlen
    omega
  have hE0 : 0 ≤ emptyMatchedCount per_sample := (emptyMatchedCount_bounds per_sample).1
  have hcontrib : variantContribution (JVal.obj ikvs) =
      if b then
        ⟨emptyMatchedCount per_sample, 0,
          (samples.length : Int) - emptyMatchedCount per_sample, 0⟩
      else
        ⟨0, emptyMatchedCount per_sample, 0,
          (samples.length : Int) - emptyMatchedCount per_sample⟩ := by
    have hmax : max 0 ((samples.length : Int) - emptyMatchedCount per_sample)
        = (samples.length : Int) - emptyMatchedCount per_sample :=
      max_eq_right (by omega)
    unfold variantContribution confusionStep
    simp only [hns, hnsu, hs1, hmax]
    cases b <;> simp
  refine ⟨rows, ?_, ?_⟩
  · simp only [review_variant, hvs, hs2, hps]
    rw [if_pos hlen]
    exact hok
  · intro c
    rw [hcnt c]
    have hcast : (per_sample.length : Int) = (samples.length : Int) := by
      exact_mod_cast hlen
    cases b <;> cases c <;>
      simp [catContribution, Counts.get, hcontrib, hcast]

/-- The variant loop of the per-experiment review succeeds when every
aligned variant is consistent, and its per-category row counts sum the
per-variant contributions. -/
theorem review_rows_go_counts (variants_meta score_full : List (String × JVal)) :
    ∀ (svs outs : List (String × JVal)),
      List.Forall₂
        (fun sv ov => sv.1 = ov.1 ∧ VariantConsistent variants_meta ov.1 sv.2 ov.2)
        svs outs →
      (∀ sv ∈ svs, jLookup score_full sv.1 = some sv.2) →
      ∃ rows, review_rows_go variants_meta score_full outs = .ok rows ∧
        ∀ c, countCat rows c = (sumContributions svs).get c := by
  intro svs
  induction svs with
  | nil =>
    intro outs hrel _
    cases hrel
    refine ⟨[], rfl, ?_⟩
    intro c
    cases c <;> simp [countCat, sumContributions, Counts.get]
  | cons sv svs2 ih =>
    intro outs hrel hl
    rcases hrel with _ | @⟨_, ov, _, outs2, hpair, htail⟩
    obtain ⟨vn, sv_v⟩ := ov
    obtain ⟨hname, hcons⟩ := hpair
    have hlook : jLookup score_full vn = some sv.2 := by
      have := hl sv (by simp)
      rwa [hname] at this
    obtain ⟨rows_v, hokv, hcntv⟩ :=
      review_variant_counts variants_meta score_full vn sv.2 sv_v hlook hcons
    obtain ⟨more, hokm, hcntm⟩ := ih outs2 htail (fun x hx => hl x (by simp [hx]))
    refine ⟨rows_v ++ more, ?_, ?_⟩
    · simp only [review_rows_go, hokv, hokm]
    · intro c
      rw [countCat_append, hcntv c, hcntm c]
      have hsum : sumContributions (sv :: svs2)
          = (variantContribution sv.2).add (sumContributions svs2) := rfl
      rw [hsum, Counts.get_add]

/-- C1 (amended): for a score artifact and an outputs file whose variants
align (same names in the same order, unique names), where each score
variant is an object carrying `should_activate` agreeing in truthiness
with the outputs metadata, an integer `num_samples` equal to the number of
outputs samples, an integer `num_success` equal to the number of samples
with no (truthy) matched keywords, and a `per_sample` list matching its
outputs in length with every sample and per_sample element an object, the
per-sample classifier of `get_experiment_review` succeeds and its
per-category totals equal the counts of `compute_confusion_counts`.
The claim as literally stated omits the requirement that `num_samples`
equal the number of outputs samples, and is refuted by
`confusion_consistency_counterexample`. -/
theorem confusion_consistency
    (variants_meta score_variants all_outputs : List (String × JVal))
    (hrel : List.Forall₂
      (fun sv ov => sv.1 = ov.1 ∧ VariantConsistent variants_meta ov.1 sv.2 ov.2)
      score_variants all_outputs)
    (hnodup : (score_variants.map Prod.fst).Nodup) :
    ∃ rows, review_rows_go variants_meta score_variants all_outputs = .ok rows ∧
      ∀ c, countCat rows c = (compute_confusion_counts score_variants).get c := by
  obtain ⟨rows, hok, hcnt⟩ :=
    review_rows_go_counts variants_meta score_variants score_variants all_outputs hrel
      (fun sv hsv => jLookup_of_mem_nodup score_variants sv hsv hnodup)
  refine ⟨rows, hok, ?_⟩
  intro c
  rw [hcnt c, compute_confusion_counts_eq_sum]

/-- The activating example variant is consistent across its artifacts. -/
theorem exampleActConsistent :
    VariantConsistent exampleMetaKvs "variant_act" exampleActInfo
      (.arr exampleActSamples) := by
  refine ⟨true, _, _, rfl, ⟨_, rfl⟩, rfl, rfl, by decide, by decide, rfl, rfl, ?_, ?_⟩
  · intro s hsmem
    simp only [exampleActSamples, List.mem_cons, List.not_mem_nil, or_false]
      at hsmem
    rcases hsmem with rfl | rfl | rfl
    · exact ⟨_, rfl⟩
    · exact ⟨_, rfl⟩
    · exact ⟨_, rfl⟩
  · intro p hpmem
    simp only [List.mem_cons, List.not_mem_nil, or_false] at hpmem
    rcases hpmem with rfl | rfl | rfl
    · exact ⟨_, rfl, rfl⟩
    · exact ⟨_, rfl, rfl⟩
    · exact ⟨_, rfl, rfl⟩

/-- The non-activating example variant is consistent across its
artifacts. -/
theorem exampleNoactConsistent :
    VariantConsistent exampleMetaKvs "variant_noact" exampleNoactInfo
      (.arr exampleNoactSamples) := by
  refine ⟨false, _, _, rfl, ⟨_, rfl⟩, rfl, rfl, by decide, by decide, rfl, rfl, ?_, ?_⟩
  · intro s hsmem
    simp only [exampleNoactSamples, List.mem_cons, List.not_mem_nil, or_false]
      at hsmem
    rcases hsmem with rfl | rfl | rfl
    · exact ⟨_, rfl⟩
    · exact ⟨_, rfl⟩
    · exact ⟨_, rfl⟩
  · intro p hpmem
    simp only [List.mem_cons, List.not_mem_nil, or_false] at hpmem
    rcases hpmem with rfl | rfl | rfl
    · exact ⟨_, rfl, rfl⟩
    · exact ⟨_, rfl, rfl⟩
    · exact ⟨_, rfl, rfl⟩

/-- The example score and outputs variants align pairwise. -/
theorem exampleForall2 :
    List.Forall₂
      (fun sv ov => sv.1 = ov.1
        ∧ VariantConsistent exampleMetaKvs ov.1 sv.2 ov.2)
      exampleScoreKvs exampleOutsKvs :=
  List.Forall₂.cons ⟨rfl, exampleActConsistent⟩
    (List.Forall₂.cons ⟨rfl, exampleNoactConsistent⟩ List.Forall₂.nil)

/-- Witness for C1 (amended) on the end-to-end example artifacts. -/
theorem confusion_consistency_witness :
    ∃ rows, review_rows_go exampleMetaKvs exampleScoreKvs exampleOutsKvs = .ok rows ∧
      ∀ c, countCat rows c = (compute_confusion_counts exampleScoreKvs).get c :=
  confusion_consistency exampleMetaKvs exampleScoreKvs exampleOutsKvs
    exampleForall2 (by simp [exampleScoreKvs])

/-- C1 counterexample: an artifact pair satisfying every hypothesis the
claim states (integer aggregates, per_sample length equal to outputs
length, num_success = number of empty-matched samples) on which the
per-sample totals and `compute_confusion_counts` disagree, because
`num_samples` (5) differs from the number of outputs samples (1): the
aggregate fn is 4 while no sample is classified fn. -/
theorem confusion_consistency_counterexample :
    reviewCategorySummary (experiment_review mismatchOutputs mismatchScore)
      = some (⟨1, 0, 4, 0⟩, 1, 1, 0, 0, 0)
    ∧ (4 : Int) ≠ 0 := by
  exact ⟨rfl, by decide⟩

/-- C4: a combination with `checkpoint_done = checkpoint_total` and
`defense_done = defense_total` derives status completed regardless of the
lock state; otherwise the status is blocked for a blocked lock,
in_progress for an active lock, and pending for a lock state of none or
stale. -/
theorem status_precedence (cd ct dd dt : Nat) (lock : LockStatus) :
    (cd = ct ∧ dd = dt → derive_progress_status cd ct dd dt lock = .completed)
    ∧ (¬(cd = ct ∧ dd = dt) →
        derive_progress_status cd ct dd dt lock
          = match lock with
            | .blocked => .blocked
            | .active => .in_progress
            | .lockNone => .pending
            | .stale => .pending) := by
  constructor
  · intro h
    simp [derive_progress_status, h.1, h.2]
  · intro h
    cases lock <;> simp [derive_progress_status, h]

/-- Witness for C4: a finished combination with a blocked lock is
completed; an unfinished one with a stale lock is pending. -/
theorem status_precedence_witness :
    (2 = 2 ∧ 0 = 0)
    ∧ derive_progress_status 2 2 0 0 .blocked = .completed
    ∧ ¬(1 = 2 ∧ 0 = 0)
    ∧ derive_progress_status 1 2 0 0 .stale = .pending :=
  ⟨⟨rfl, rfl⟩, (status_precedence 2 2 0 0 .blocked).1 ⟨rfl, rfl⟩,
    by decide, (status_precedence 1 2 0 0 .stale).2 (by decide)⟩

/-- C5 counterexample: a lock file from another host whose pid field is
the boolean `true` — not a positive integer, so the claim classifies it
blocked — is classified active by the code, because Python accepts
`int(True) = 1` as a valid positive pid. -/
theorem lock_classification_counterexample :
    (inspect_running_lock (.json badPidLock) "thishost" (fun _ => false)).status
      = .active
    ∧ LockStatus.active ≠ LockStatus.blocked := by
  exact ⟨by decide, by decide⟩

/-- C5 (amended): `inspect_running_lock` returns none iff no lock file
exists; active iff the lock is a JSON object with a hostname that is a
string nonempty after stripping and a pid that Python `int()` converts to
a positive integer (ints, bools and numeric strings convert), where the
hostname differs from the current host or the pid is live; stale iff such
a well-formed lock has the current hostname and a dead pid; and blocked in
every other case where the file exists (empty, invalid JSON, not an
object, no valid hostname, or no coercible positive pid). -/
theorem lock_classification (lock : LockFileState) (host : String)
    (live : Int → Bool) :
    ((inspect_running_lock lock host live).status = .lockNone
      ↔ lock = .absent)
    ∧ ((inspect_running_lock lock host live).status = .active
      ↔ ∃ raw h pid, lock = .json raw ∧ lockHostname raw = some h
          ∧ lockPid raw = some pid ∧ (h ≠ host ∨ live pid = true))
    ∧ ((inspect_running_lock lock host live).status = .stale
      ↔ ∃ raw pid, lock = .json raw ∧ lockHostname raw = some host
          ∧ lockPid raw = some pid ∧ live pid = false)
    ∧ ((inspect_running_lock lock host live).status = .blocked
      ↔ (lock = .emptyFile ∨ lock = .invalidJson
          ∨ ∃ raw, lock = .json raw
              ∧ (lockHostname raw = none ∨ lockPid raw = none))) := by
  cases lock with
  | absent => simp [inspect_running_lock]
  | emptyFile => simp [inspect_running_lock]
  | invalidJson => simp [inspect_running_lock]
  | json raw =>
    cases raw with
    | obj kvs =>
      cases hh : (JVal.obj kvs).get? "hostname" with
      | none =>
        simp [inspect_running_lock, lockHostname, hh]
      | some hv =>
        cases hv with
        | str h =>
          by_cases htrim : pyStrip h = ""
          · simp [inspect_running_lock, lockHostname, hh, htrim]
          · cases hp : (match (JVal.obj kvs).get? "pid" with
                        | some w => pyIntCoerce w
                        | none => none) with
            | none =>
              simp [inspect_running_lock, lockHostname, lockPid, hh, htrim, hp]
            | some pid =>
              by_cases hpos : pid ≤ 0
              · simp [inspect_running_lock, lockHostname, lockPid, hh, htrim,
                  hp, hpos]
              · by_cases hhost : h = host
                · subst hhost
                  cases hlive : live pid
                  · simp [inspect_running_lock, lockHostname, lockPid, hh,
                      htrim, hp, hpos, hlive]
                  · simp [inspect_running_lock, lockHostname, lockPid, hh,
                      htrim, hp, hpos, hlive]
                · simp [inspect_running_lock, lockHostname, lockPid, hh,
                    htrim, hp, hpos, hhost]
        | null => simp [inspect_running_lock, lockHostname, hh]
        | bool b => simp [inspect_running_lock, lockHostname, hh]
        | int n => simp [inspect_running_lock, lockHostname, hh]
        | arr xs => simp [inspect_running_lock, lockHostname, hh]
        | obj kvs2 => simp [inspect_running_lock, lockHostname, hh]
    | null => simp [inspect_running_lock, lockHostname, lockPid, JVal.get?]
    | bool b => simp [inspect_running_lock, lockHostname, lockPid, JVal.get?]
    | int n => simp [inspect_running_lock, lockHostname, lockPid, JVal.get?]
    | str s => simp [inspect_running_lock, lockHostname, lockPid, JVal.get?]
    | arr xs => simp [inspect_running_lock, lockHostname, lockPid, JVal.get?]

/-- Upserting a key leaves exactly `max 1 (previous count)` entries of
that key (the first occurrence is replaced in place, or one appended). -/
theorem keyCount_upsert (entry : ValidationEntry) :
    ∀ store : List ValidationEntry,
      keyCount (upsertEntry entry store) (entryKey entry)
        = max 1 (keyCount store (entryKey entry)) := by
  intro store
  induction store with
  | nil => simp [upsertEntry, keyCount, entryKey]
  | cons e rest ih =>
    by_cases h : e.dataset = entry.dataset ∧ e.sample_index = entry.sample_index
    · have hkey : entryKey e = entryKey entry := by
        simp [entryKey, h.1, h.2]
      simp only [upsertEntry, if_pos h]
      unfold keyCount at ih ⊢
      simp [List.filter_cons, hkey]
    · have hkey : ¬(entryKey e = entryKey entry) := by
        simp only [entryKey, Prod.mk.injEq]
        intro hcon
        exact h ⟨hcon.1, hcon.2⟩
      simp only [upsertEntry, if_neg h]
      unfold keyCount at ih ⊢
      simp [List.filter_cons, hkey]
      omega

/-- A store with no duplicate keys holds each key at most once. -/
theorem keyCount_le_one_of_nodup (k : String × Int) :
    ∀ store : List ValidationEntry,
      (store.map entryKey).Nodup → keyCount store k ≤ 1 := by
  intro store
  induction store with
  | nil => simp [keyCount]
  | cons e rest ih =>
    intro hnd
    rw [List.map_cons, List.nodup_cons] at hnd
    by_cases h : entryKey e = k
    · have hzero : keyCount rest k = 0 := by
        unfold keyCount
        rw [List.length_eq_zero, List.filter_eq_nil]
        intro a ha
        simp only [decide_eq_true_eq]
        intro hak
        exact hnd.1 (h ▸ hak ▸ List.mem_map_of_mem entryKey ha)
      unfold keyCount at hzero ⊢
      simp [List.filter_cons, h, hzero]
    · unfold keyCount at ih ⊢
      simp only [List.filter_cons, h, decide_eq_true_eq, if_neg h]
      exact ih hnd.2

/-- After an upsert into a store holding the key at most once, every entry
with that key is the upserted entry. -/
theorem upsert_key_mem (entry : ValidationEntry) :
    ∀ store : List ValidationEntry,
      keyCount store (entryKey entry) ≤ 1 →
      ∀ e ∈ upsertEntry entry store, entryKey e = entryKey entry → e = entry := by
  intro store
  induction store with
  | nil =>
    intro _ e he _
    simpa [upsertEntry] using he
  | cons e0 rest ih =>
    intro hle e he hkey
    by_cases h : e0.dataset = entry.dataset ∧ e0.sample_index = entry.sample_index
    · have hk0 : entryKey e0 = entryKey entry := by
        simp [entryKey, h.1, h.2]
      rw [upsertEntry, if_pos h, List.mem_cons] at he
      rcases he with he | he
      · exact he
      · exfalso
        have hcount : keyCount (e0 :: rest) (entryKey entry)
            = keyCount rest (entryKey entry) + 1 := by
          unfold keyCount
          simp [List.filter_cons, hk0]
        have hzero : keyCount rest (entryKey entry) = 0 := by omega
        unfold keyCount at hzero
        rw [List.length_eq_zero, List.filter_eq_nil] at hzero
        exact absurd hkey (by simpa using hzero e he)
    · rw [upsertEntry, if_neg h, List.mem_cons] at he
      rcases he with he | he
      · exfalso
        apply h
        have h1 : e0.dataset = entry.dataset := by
          have := congrArg Prod.fst hkey
          simpa [entryKey, he] using this
        have h2 : e0.sample_index = entry.sample_index := by
          have := congrArg Prod.snd hkey
          simpa [entryKey, he] using this
        exact ⟨h1, h2⟩
      · have hk0 : ¬(entryKey e0 = entryKey entry) := by
          simp only [entryKey, Prod.mk.injEq]
          intro hcon
          exact h ⟨hcon.1, hcon.2⟩
        have hle2 : keyCount rest (entryKey entry) ≤ 1 := by
          unfold keyCount at hle ⊢
          simpa [List.filter_cons, hk0] using hle
        exact ih hle2 e he hkey

/-- Every entry of an upserted store is the new entry or an old entry. -/
theorem upsert_mem_sub (entry : ValidationEntry) :
    ∀ store : List ValidationEntry,
      ∀ e ∈ upsertEntry entry store, e = entry ∨ e ∈ store := by
  intro store
  induction store with
  | nil =>
    intro e he
    left
    simpa [upsertEntry] using he
  | cons e0 rest ih =>
    intro e he
    by_cases h : e0.dataset = entry.dataset ∧ e0.sample_index = entry.sample_index
    · rw [upsertEntry, if_pos h, List.mem_cons] at he
      rcases he with he | he
      · exact Or.inl he
      · exact Or.inr (List.mem_cons_of_mem _ he)
    · rw [upsertEntry, if_neg h, List.mem_cons] at he
      rcases he with he | he
      · exact Or.inr (he ▸ List.mem_cons_self _ _)
      · rcases ih e he with h1 | h1
        · exact Or.inl h1
        · exact Or.inr (List.mem_cons_of_mem _ h1)

/-- Upserting preserves the no-duplicate-keys invariant. -/
theorem upsert_keys_nodup (entry : ValidationEntry) :
    ∀ store : List ValidationEntry,
      (store.map entryKey).Nodup →
      ((upsertEntry entry store).map entryKey).Nodup := by
  intro store
  induction store with
  | nil =>
    intro _
    simp [upsertEntry]
  | cons e0 rest ih =>
    intro hnd
    rw [List.map_cons, List.nodup_cons] at hnd
    by_cases h : e0.dataset = entry.dataset ∧ e0.sample_index = entry.sample_index
    · have hk0 : entryKey e0 = entryKey entry := by
        simp [entryKey, h.1, h.2]
      rw [upsertEntry, if_pos h, List.map_cons, List.nodup_cons]
      exact ⟨hk0 ▸ hnd.1, hnd.2⟩
    · have hk0 : ¬(entryKey e0 = entryKey entry) := by
        simp only [entryKey, Prod.mk.injEq]
        intro hcon
        exact h ⟨hcon.1, hcon.2⟩
      rw [upsertEntry, if_neg h, List.map_cons, List.nodup_cons]
      constructor
      · intro hmem
        rcases List.mem_map.mp hmem with ⟨e, he, hkey⟩
        rcases upsert_mem_sub entry rest e he with h1 | h1
        · exact hk0 (by rw [← hkey, h1])
        · exact hnd.1 (hkey ▸ List.mem_map_of_mem entryKey h1)
      · exact ih hnd.2

/-- The store after any submission sequence has no duplicate keys, and
every key it holds came from the initial store or from a submission. -/
theorem applySubmissions_facts :
    ∀ (subs : List (ValidationWriteRequest × String))
      (store : List ValidationEntry),
      (store.map entryKey).Nodup →
      ((applySubmissions subs store).map entryKey).Nodup ∧
      ∀ k ∈ (applySubmissions subs store).map entryKey,
        k ∈ store.map entryKey ∨ k ∈ subs.map (fun pt => reqKey pt.1) := by
  intro subs
  induction subs with
  | nil =>
    intro store hnd
    exact ⟨hnd, fun k hk => Or.inl hk⟩
  | cons pt rest ih =>
    intro store hnd
    obtain ⟨p, t⟩ := pt
    cases hpost : post_validation store p t with
    | error e =>
      have := ih store hnd
      refine ⟨?_, ?_⟩
      · simpa [applySubmissions, hpost] using this.1
      · intro k hk
        have hk2 : k ∈ (applySubmissions rest store).map entryKey := by
          simpa [applySubmissions, hpost] using hk
        rcases this.2 k hk2 with h1 | h1
        · exact Or.inl h1
        · exact Or.inr (by simpa using Or.inr h1)
    | ok store2 =>
      have hstore2 : store2
          = upsertEntry ⟨p.sample_index, p.dataset, p.result, p.notes, t⟩ store := by
        unfold post_validation at hpost
        by_cases h1 : p.dataset ≠ "train" ∧ p.dataset ≠ "test"
        · rw [if_pos h1] at hpost
          cases hpost
        · rw [if_neg h1] at hpost
          by_cases h2 : p.result ≠ "good" ∧ p.result ≠ "bad"
          · rw [if_pos h2] at hpost
            cases hpost
          · rw [if_neg h2] at hpost
            cases hpost
            rfl
      have hnd2 : (store2.map entryKey).Nodup := by
        rw [hstore2]
        exact upsert_keys_nodup _ store hnd
      have := ih store2 hnd2
      refine ⟨?_, ?_⟩
      · simpa [applySubmissions, hpost] using this.1
      · intro k hk
        have hk2 : k ∈ (applySubmissions rest store2).map entryKey := by
          simpa [applySubmissions, hpost] using hk
        rcases this.2 k hk2 with h1 | h1
        · rcases List.mem_map.mp h1 with ⟨e, he, hkey⟩
          rw [hstore2] at he
          rcases upsert_mem_sub _ store e he with h2 | h2
          · refine Or.inr ?_
            simp only [List.map_cons, List.mem_cons]
            left
            rw [← hkey, h2]
            rfl
          · exact Or.inl (hkey ▸ List.mem_map_of_mem entryKey h2)
        · exact Or.inr (by simpa using Or.inr h1)

/-- A duplicate-free list of keys drawn from a pool is no longer than the
deduplicated pool. -/
theorem nodup_sub_length_le (l K : List (String × Int))
    (hnd : l.Nodup) (hsub : ∀ k ∈ l, k ∈ K) :
    l.length ≤ K.dedup.length := by
  have h1 : l.length = l.toFinset.card := (List.toFinset_card_of_nodup hnd).symm
  have h2 : l.toFinset ⊆ K.toFinset := by
    intro x hx
    rw [List.mem_toFinset] at hx ⊢
    exact hsub x hx
  have h3 : K.toFinset.card = K.dedup.length := List.card_toFinset K
  calc l.length = l.toFinset.card := h1
    _ ≤ K.toFinset.card := Finset.card_le_card h2
    _ = K.dedup.length := h3

/-- C7: starting from a store with at most one entry per key, submitting
two valid entries for the same (dataset, sample_index) leaves exactly one
entry for that key, equal to the second submission (result, notes, and
reviewed_at); and starting from the empty store, after any submission
sequence the store never holds more entries than the number of distinct
keys ever submitted. -/
theorem validation_upsert_dedup :
    (∀ (store : List ValidationEntry) (p1 p2 : ValidationWriteRequest)
        (t1 t2 : String),
      (store.map entryKey).Nodup →
      reqKey p1 = reqKey p2 →
      (p1.dataset = "train" ∨ p1.dataset = "test") →
      (p1.result = "good" ∨ p1.result = "bad") →
      (p2.dataset = "train" ∨ p2.dataset = "test") →
      (p2.result = "good" ∨ p2.result = "bad") →
      ∃ s1 s2,
        post_validation store p1 t1 = .ok s1 ∧
        post_validation s1 p2 t2 = .ok s2 ∧
        keyCount s2 (reqKey p2) = 1 ∧
        ∀ e ∈ s2, entryKey e = reqKey p2 →
          e = ⟨p2.sample_index, p2.dataset, p2.result, p2.notes, t2⟩)
    ∧ (∀ subs : List (ValidationWriteRequest × String),
        (applySubmissions subs []).length
          ≤ ((subs.map (fun pt => reqKey pt.1)).dedup).length) := by
  constructor
  · intro store p1 p2 t1 t2 hnd hkey hd1 hr1 hd2 hr2
    have hok1 : post_validation store p1 t1
        = .ok (upsertEntry ⟨p1.sample_index, p1.dataset, p1.result, p1.notes, t1⟩
            store) := by
      unfold post_validation
      rw [if_neg (by tauto), if_neg (by tauto)]
    have hok2 : post_validation
        (upsertEntry ⟨p1.sample_index, p1.dataset, p1.result, p1.notes, t1⟩ store)
        p2 t2
        = .ok (upsertEntry ⟨p2.sample_index, p2.dataset, p2.result, p2.notes, t2⟩
            (upsertEntry ⟨p1.sample_index, p1.dataset, p1.result, p1.notes, t1⟩
              store)) := by
      unfold post_validation
      rw [if_neg (by tauto), if_neg (by tauto)]
    have hek1 : entryKey ⟨p1.sample_index, p1.dataset, p1.result, p1.notes, t1⟩
        = reqKey p1 := rfl
    have hek2 : entryKey ⟨p2.sample_index, p2.dataset, p2.result, p2.notes, t2⟩
        = reqKey p2 := rfl
    have hc0 : keyCount store (reqKey p1) ≤ 1 :=
      keyCount_le_one_of_nodup (reqKey p1) store hnd
    have hc1 : keyCount
        (upsertEntry ⟨p1.sample_index, p1.dataset, p1.result, p1.notes, t1⟩ store)
        (reqKey p1) = 1 := by
      have := keyCount_upsert
        ⟨p1.sample_index, p1.dataset, p1.result, p1.notes, t1⟩ store
      rw [hek1] at this
      omega
    refine ⟨_, _, hok1, hok2, ?_, ?_⟩
    · have := keyCount_upsert
        ⟨p2.sample_index, p2.dataset, p2.result, p2.notes, t2⟩
        (upsertEntry ⟨p1.sample_index, p1.dataset, p1.result, p1.notes, t1⟩ store)
      rw [hek2, ← hkey, hc1] at this
      rw [← hkey]
      omega
    · intro e he hke
      have hle : keyCount
          (upsertEntry ⟨p1.sample_index, p1.dataset, p1.result, p1.notes, t1⟩ store)
          (entryKey ⟨p2.sample_index, p2.dataset, p2.result, p2.notes, t2⟩) ≤ 1 := by
        rw [hek2, ← hkey]
        omega
      exact upsert_key_mem _ _ hle e he (hke.trans hek2.symm)
  · intro subs
    have hfacts := applySubmissions_facts subs [] (by simp)
    have hlen : (applySubmissions subs []).length
        = ((applySubmissions subs []).map entryKey).length := by
      simp
    rw [hlen]
    apply nodup_sub_length_le _ _ hfacts.1
    intro k hk
    rcases hfacts.2 k hk with h1 | h1
    · simp at h1
    · exact h1

/-- Witness for C7 at concrete inputs: two submissions for the same key
leave one entry with the second content; three submissions over two
distinct keys leave at most two entries. -/
theorem validation_upsert_dedup_witness :
    (∃ s1 s2,
      post_validation [] ⟨0, "train", "good", ""⟩ "t1" = .ok s1 ∧
      post_validation s1 ⟨0, "train", "bad", "n"⟩ "t2" = .ok s2 ∧
      keyCount s2 (reqKey ⟨0, "train", "bad", "n"⟩) = 1 ∧
      ∀ e ∈ s2, entryKey e = reqKey ⟨0, "train", "bad", "n"⟩ →
        e = ⟨0, "train", "bad", "n", "t2"⟩)
    ∧ (applySubmissions
        [(⟨0, "train", "good", ""⟩, "t1"), (⟨1, "train", "good", ""⟩, "t2"),
         (⟨0, "train", "bad", ""⟩, "t3")] []).length
        ≤ (([(⟨0, "train", "good", ""⟩, "t1"),
            (⟨1, "train", "good", ""⟩, "t2"),
            (⟨0, "train", "bad", ""⟩, "t3")].map
              (fun pt : ValidationWriteRequest × String => reqKey pt.1)).dedup).length :=
  ⟨validation_upsert_dedup.1 [] ⟨0, "train", "good", ""⟩
      ⟨0, "train", "bad", "n"⟩ "t1" "t2" (by simp) rfl (by simp) (by simp)
      (by simp) (by simp),
    validation_upsert_dedup.2 _⟩

/-- Dict assignment stores the new value under the key. -/
theorem dictGet_upsert_same {α : Type} (k : String × Int) (v : α) :
    ∀ m, dictGet (dictUpsert k v m) k = some v := by
  intro m
  induction m with
  | nil => simp [dictUpsert, dictGet, List.find?]
  | cons kv rest ih =>
    obtain ⟨k0, v0⟩ := kv
    by_cases h : k0 = k
    · simp [dictUpsert, h, dictGet, List.find?]
    · rw [dictUpsert, if_neg h]
      unfold dictGet at ih ⊢
      rw [List.find?_cons_of_neg _ (by simpa using h)]
      exact ih

/-- Dict assignment leaves other keys unchanged. -/
theorem dictGet_upsert_other {α : Type} (k : String × Int) (v : α)
    (k' : String × Int) (hne : k' ≠ k) :
    ∀ m, dictGet (dictUpsert k v m) k' = dictGet m k' := by
  have hkk : ¬(k = k') := fun h => hne h.symm
  intro m
  induction m with
  | nil =>
    simp [dictUpsert, dictGet, List.find?, hkk]
  | cons kv rest ih =>
    obtain ⟨k0, v0⟩ := kv
    by_cases h : k0 = k
    · subst h
      rw [dictUpsert, if_pos rfl]
      unfold dictGet
      rw [List.find?_cons_of_neg _ (by simpa using hkk),
        List.find?_cons_of_neg _ (by simpa using hkk)]
    · rw [dictUpsert, if_neg h]
      by_cases h2 : k0 = k'
      · subst h2
        unfold dictGet
        rw [List.find?_cons_of_pos _ (by simp), List.find?_cons_of_pos _ (by simp)]
      · unfold dictGet at ih ⊢
        rw [List.find?_cons_of_neg _ (by simpa using h2),
          List.find?_cons_of_neg _ (by simpa using h2)]
        exact ih

/-- Every binding of an upserted dict is the new binding or an old one. -/
theorem dictUpsert_mem_sub {α : Type} (k : String × Int) (v : α) :
    ∀ m, ∀ kv ∈ dictUpsert k v m, kv = (k, v) ∨ kv ∈ m := by
  intro m
  induction m with
  | nil =>
    intro kv hkv
    left
    simpa [dictUpsert] using hkv
  | cons kv0 rest ih =>
    obtain ⟨k0, v0⟩ := kv0
    intro kv hkv
    by_cases h : k0 = k
    · rw [dictUpsert, if_pos h, List.mem_cons] at hkv
      rcases hkv with hkv | hkv
      · exact Or.inl hkv
      · exact Or.inr (List.mem_cons_of_mem _ hkv)
    · rw [dictUpsert, if_neg h, List.mem_cons] at hkv
      rcases hkv with hkv | hkv
      · exact Or.inr (hkv ▸ List.mem_cons_self _ _)
      · rcases ih kv hkv with h1 | h1
        · exact Or.inl h1
        · exact Or.inr (List.mem_cons_of_mem _ h1)

/-- Dict assignment preserves key uniqueness. -/
theorem dictUpsert_keys_nodup {α : Type} (k : String × Int) (v : α) :
    ∀ m : List ((String × Int) × α),
      (m.map Prod.fst).Nodup → ((dictUpsert k v m).map Prod.fst).Nodup := by
  intro m
  induction m with
  | nil =>
    intro _
    simp [dictUpsert]
  | cons kv0 rest ih =>
    obtain ⟨k0, v0⟩ := kv0
    intro hnd
    rw [List.map_cons, List.nodup_cons] at hnd
    by_cases h : k0 = k
    · rw [dictUpsert, if_pos h, List.map_cons, List.nodup_cons]
      exact ⟨h ▸ hnd.1, hnd.2⟩
    · rw [dictUpsert, if_neg h, List.map_cons, List.nodup_cons]
      constructor
      · intro hmem
        rcases List.mem_map.mp hmem with ⟨kv, hkv, hfst⟩
        have hfst2 : kv.1 = k0 := by simpa using hfst
        rcases dictUpsert_mem_sub k v rest kv hkv with h1 | h1
        · apply h
          rw [← hfst2, h1]
        · apply hnd.1
          have hmem2 : kv.1 ∈ List.map Prod.fst rest :=
            List.mem_map_of_mem Prod.fst h1
          rw [hfst2] at hmem2
          exact hmem2
      · exact ih hnd.2

/-- With unique keys, membership determines the dict lookup. -/
theorem dictGet_of_mem_nodup {α : Type} :
    ∀ (m : List ((String × Int) × α)) (kv : (String × Int) × α),
      kv ∈ m → (m.map Prod.fst).Nodup → dictGet m kv.1 = some kv.2 := by
  intro m
  induction m with
  | nil =>
    intro kv hkv
    cases hkv
  | cons hd tl ih =>
    intro kv hkv hnd
    rw [List.map_cons, List.nodup_cons] at hnd
    rw [List.mem_cons] at hkv
    rcases hkv with hkv | hkv
    · subst hkv
      unfold dictGet
      rw [List.find?_cons_of_pos _ (by simp)]
    · have hne : hd.1 ≠ kv.1 := by
        intro hcontra
        exact hnd.1 (hcontra ▸ List.mem_map_of_mem Prod.fst hkv)
      have := ih kv hkv hnd.2
      unfold dictGet at this ⊢
      rw [List.find?_cons_of_neg _ (by simpa using hne)]
      exact this

/-- The `by_key` dict of `unique_validation_entries` has unique keys, each
binding holds an entry of that key, and looking a key up yields the last
entry in file order carrying it (among entries of a valid dataset). -/
theorem dedupByKey_facts :
    ∀ entries : List ValidationEntry,
      ((dedupByKey entries).map Prod.fst).Nodup
      ∧ (∀ kv ∈ dedupByKey entries, entryKey kv.2 = kv.1)
      ∧ ∀ k, dictGet (dedupByKey entries) k
          = (entries.filter (fun x =>
              decide ((x.dataset = "train" ∨ x.dataset = "test")
                ∧ entryKey x = k))).getLast? := by
  intro entries
  induction entries using List.reverseRecOn with
  | nil =>
    refine ⟨by simp [dedupByKey], ?_, ?_⟩
    · intro kv hkv
      simp [dedupByKey] at hkv
    · intro k
      simp [dedupByKey, dictGet, List.find?]
  | append_singleton es e ih =>
    have hstep : dedupByKey (es ++ [e])
        = if e.dataset = "train" ∨ e.dataset = "test" then
            dictUpsert (entryKey e) e (dedupByKey es)
          else dedupByKey es := by
      unfold dedupByKey
      rw [List.foldl_append]
      simp [List.foldl]
    by_cases hv : e.dataset = "train" ∨ e.dataset = "test"
    · rw [hstep, if_pos hv]
      refine ⟨dictUpsert_keys_nodup _ _ _ ih.1, ?_, ?_⟩
      · intro kv hkv
        rcases dictUpsert_mem_sub _ _ _ kv hkv with h1 | h1
        · rw [h1]
        · exact ih.2.1 kv h1
      · intro k
        by_cases hk : k = entryKey e
        · subst hk
          rw [dictGet_upsert_same, List.filter_append]
          have hpred : ((e.dataset = "train" ∨ e.dataset = "test")
              ∧ entryKey e = entryKey e) := ⟨hv, rfl⟩
          have he : (List.filter (fun x =>
              decide ((x.dataset = "train" ∨ x.dataset = "test")
                ∧ entryKey x = entryKey e)) [e]) = [e] := by
            simp [List.filter, hpred]
          rw [he, List.getLast?_concat]
        · rw [dictGet_upsert_other _ _ _ hk, ih.2.2 k, List.filter_append]
          have hpred : ¬((e.dataset = "train" ∨ e.dataset = "test")
              ∧ entryKey e = k) := fun hcon => hk hcon.2.symm
          have he : (List.filter (fun x =>
              decide ((x.dataset = "train" ∨ x.dataset = "test")
                ∧ entryKey x = k)) [e]) = [] := by
            simp [List.filter, hpred]
          rw [he, List.append_nil]
    · rw [hstep, if_neg hv]
      refine ⟨ih.1, ih.2.1, ?_⟩
      intro k
      rw [ih.2.2 k, List.filter_append]
      have hpred : ¬((e.dataset = "train" ∨ e.dataset = "test")
          ∧ entryKey e = k) := fun hcon => hv hcon.1
      have he : (List.filter (fun x =>
          decide ((x.dataset = "train" ∨ x.dataset = "test")
            ∧ entryKey x = k)) [e]) = [] := by
        simp [List.filter, hpred]
      rw [he, List.append_nil]

/-- A produced review row keeps the entry's key, result, notes and
timestamp, and only entries of a valid dataset produce rows. -/
theorem validationRowOf_spec (m : List ((String × Int) × NormalizedSample))
    (d res : String) (e : ValidationEntry) (r : ValidationRow)
    (h : validationRowOf m d res e = some r) :
    (e.dataset = "train" ∨ e.dataset = "test")
    ∧ r.dataset = e.dataset ∧ r.sample_index = e.sample_index
    ∧ r.result = e.result ∧ r.notes = e.notes
    ∧ r.reviewed_at = e.reviewed_at := by
  unfold validationRowOf at h
  by_cases h1 : ¬(e.dataset = "train" ∨ e.dataset = "test")
  · rw [if_pos h1] at h
    cases h
  · rw [if_neg h1] at h
    have hv := not_not.mp h1
    by_cases h2 : d ≠ "all" ∧ e.dataset ≠ d
    · rw [if_pos h2] at h
      cases h
    · rw [if_neg h2] at h
      by_cases h3 : res ≠ "all" ∧ e.result ≠ res
      · rw [if_pos h3] at h
        cases h
      · rw [if_neg h3] at h
        cases hm : dictGet m (entryKey e) with
        | none =>
          rw [hm] at h
          cases h
        | some s =>
          rw [hm] at h
          simp only [Option.some.injEq] at h
          subst h
          exact ⟨hv, rfl, rfl, rfl, rfl, rfl⟩

/-- The row loop preserves descending reviewed_at order. -/
theorem filterMap_rows_pairwise (m : List ((String × Int) × NormalizedSample))
    (d res : String) :
    ∀ l : List ValidationEntry,
      l.Pairwise (fun a b => b.reviewed_at ≤ a.reviewed_at) →
      (l.filterMap (validationRowOf m d res)).Pairwise
        (fun a b => b.reviewed_at ≤ a.reviewed_at) := by
  intro l
  induction l with
  | nil =>
    intro _
    simp
  | cons a l ih =>
    intro hp
    rw [List.pairwise_cons] at hp
    rw [List.filterMap_cons]
    cases hf : validationRowOf m d res a with
    | none => exact ih hp.2
    | some r =>
      rw [List.pairwise_cons]
      refine ⟨?_, ih hp.2⟩
      intro r2 hr2
      rcases List.mem_filterMap.mp hr2 with ⟨e2, he2, hf2⟩
      have hs := validationRowOf_spec m d res a r hf
      have hs2 := validationRowOf_spec m d res e2 r2 hf2
      rw [hs2.2.2.2.2.2, hs.2.2.2.2.2]
      exact hp.1 e2 he2

/-- The row loop produces at most one row per key when the entries have
unique keys. -/
theorem filterMap_rows_keys_nodup (m : List ((String × Int) × NormalizedSample))
    (d res : String) :
    ∀ l : List ValidationEntry,
      (l.map entryKey).Nodup →
      ((l.filterMap (validationRowOf m d res)).map rowKey).Nodup := by
  intro l
  induction l with
  | nil =>
    intro _
    simp
  | cons a l ih =>
    intro hnd
    rw [List.map_cons, List.nodup_cons] at hnd
    rw [List.filterMap_cons]
    cases hf : validationRowOf m d res a with
    | none => exact ih hnd.2
    | some r =>
      rw [List.map_cons, List.nodup_cons]
      refine ⟨?_, ih hnd.2⟩
      intro hmem
      rcases List.mem_map.mp hmem with ⟨r2, hr2, hkey2⟩
      rcases List.mem_filterMap.mp hr2 with ⟨e2, he2, hf2⟩
      have hs := validationRowOf_spec m d res a r hf
      have hs2 := validationRowOf_spec m d res e2 r2 hf2
      apply hnd.1
      have h1 : rowKey r2 = entryKey e2 := by
        simp [rowKey, entryKey, hs2.2.1, hs2.2.2.1]
      have h2 : rowKey r = entryKey a := by
        simp [rowKey, entryKey, hs.2.1, hs.2.2.1]
      rw [← h2, ← hkey2, h1]
      exact List.mem_map_of_mem entryKey he2

/-- C8 (amended): for every stored entry list and valid filters, the query
rows (before pagination) hold at most one row per (dataset, sample_index);
the row kept for a key is built from the last entry in file order carrying
that key — not the one with the latest reviewed_at; the rows are sorted by
reviewed_at descending; and the endpoint pages exactly these rows. -/
theorem validation_query_dedup (entries : List ValidationEntry)
    (train test : List NormalizedSample) (dataset result search : String)
    (hd : dataset = "all" ∨ dataset = "train" ∨ dataset = "test")
    (hr : result = "all" ∨ result = "good" ∨ result = "bad") :
    ∃ rows,
      get_validation_review_rows entries train test dataset result search
        = .ok rows ∧
      (rows.map rowKey).Nodup ∧
      rows.Pairwise (fun a b => b.reviewed_at ≤ a.reviewed_at) ∧
      (∀ r ∈ rows, ∃ e,
        (entries.filter (fun x => decide (entryKey x = rowKey r))).getLast?
          = some e ∧
        r.result = e.result ∧ r.notes = e.notes ∧ r.reviewed_at = e.reviewed_at) ∧
      (∀ page limit : Int,
        get_validation_review entries train test dataset result search page limit
          = paginate rows page limit) := by
  have hdict := dedupByKey_facts entries
  have hperm : List.Perm
      (List.insertionSort (fun a b => b.reviewed_at ≤ a.reviewed_at)
        ((dedupByKey entries).map Prod.snd))
      ((dedupByKey entries).map Prod.snd) :=
    List.perm_insertionSort _ _
  have hkeysval : ((dedupByKey entries).map Prod.snd).map entryKey
      = (dedupByKey entries).map Prod.fst := by
    rw [List.map_map]
    exact List.map_congr_left (fun kv hkv => hdict.2.1 kv hkv)
  have hndval : (((dedupByKey entries).map Prod.snd).map entryKey).Nodup := by
    rw [hkeysval]
    exact hdict.1
  have hndsorted : ((unique_validation_entries entries).map entryKey).Nodup := by
    have hpm : List.Perm
        ((unique_validation_entries entries).map entryKey)
        (((dedupByKey entries).map Prod.snd).map entryKey) :=
      List.Perm.map entryKey hperm
    exact hpm.nodup_iff.mpr hndval
  have hsorted : (unique_validation_entries entries).Pairwise
      (fun a b => b.reviewed_at ≤ a.reviewed_at) := by
    haveI : IsTotal ValidationEntry (fun a b => b.reviewed_at ≤ a.reviewed_at) :=
      ⟨fun a b => le_total b.reviewed_at a.reviewed_at⟩
    haveI : IsTrans ValidationEntry (fun a b => b.reviewed_at ≤ a.reviewed_at) :=
      ⟨fun _ _ _ hab hbc => le_trans hbc hab⟩
    exact List.sorted_insertionSort _ _
  have hok : get_validation_review_rows entries train test dataset result search
      = .ok (if search ≠ "" then
          ((unique_validation_entries entries).filterMap
            (validationRowOf (sampleMap train test) dataset result)).filter
            (fun r => pyContainsSubstr (pyLower (rowSearchText r)) (pyLower search))
        else
          (unique_validation_entries entries).filterMap
            (validationRowOf (sampleMap train test) dataset result)) := by
    unfold get_validation_review_rows
    rw [if_neg (not_not_intro hd), if_neg (not_not_intro hr)]
  refine ⟨_, hok, ?_, ?_, ?_, ?_⟩
  · have hbase := filterMap_rows_keys_nodup (sampleMap train test) dataset result
      (unique_validation_entries entries) hndsorted
    by_cases hs : search ≠ ""
    · rw [if_pos hs]
      exact ((List.filter_sublist _).map rowKey).nodup hbase
    · rw [if_neg hs]
      exact hbase
  · have hbase := filterMap_rows_pairwise (sampleMap train test) dataset result
      (unique_validation_entries entries) hsorted
    by_cases hs : search ≠ ""
    · rw [if_pos hs]
      exact hbase.sublist (List.filter_sublist _)
    · rw [if_neg hs]
      exact hbase
  · intro r hrmem
    have hrmem2 : r ∈ (unique_validation_entries entries).filterMap
        (validationRowOf (sampleMap train test) dataset result) := by
      by_cases hs : search ≠ ""
      · rw [if_pos hs] at hrmem
        exact List.mem_of_mem_filter hrmem
      · rw [if_neg hs] at hrmem
        exact hrmem
    rcases List.mem_filterMap.mp hrmem2 with ⟨e, he, hf⟩
    have hs := validationRowOf_spec _ _ _ _ _ hf
    have hev : e ∈ (dedupByKey entries).map Prod.snd := hperm.mem_iff.mp he
    rcases List.mem_map.mp hev with ⟨kv, hkv, hsnd⟩
    have hkey : kv.1 = entryKey e := by
      rw [← hdict.2.1 kv hkv, hsnd]
    have hget : dictGet (dedupByKey entries) (entryKey e) = some e := by
      have := dictGet_of_mem_nodup (dedupByKey entries) kv hkv hdict.1
      rw [hkey, hsnd] at this
      exact this
    have hlast := (hdict.2.2 (entryKey e)).symm.trans hget
    have hfeq : entries.filter (fun x =>
          decide ((x.dataset = "train" ∨ x.dataset = "test")
            ∧ entryKey x = entryKey e))
        = entries.filter (fun x => decide (entryKey x = entryKey e)) := by
      apply List.filter_congr
      intro x _
      by_cases hx : entryKey x = entryKey e
      · have hxd : x.dataset = e.dataset := congrArg Prod.fst hx
        have : (x.dataset = "train" ∨ x.dataset = "test") := hxd ▸ hs.1
        simp [hx, this]
      · simp [hx]
    rw [hfeq] at hlast
    have hrk : rowKey r = entryKey e := by
      simp [rowKey, entryKey, hs.2.1, hs.2.2.1]
    refine ⟨e, ?_, hs.2.2.2.1, hs.2.2.2.2.1, hs.2.2.2.2.2⟩
    rw [hrk]
    exact hlast
  · intro page limit
    unfold get_validation_review
    rw [hok]

/-- C8 counterexample: a store holding two entries for the same key, the
first with the later reviewed_at; the query keeps the second entry (last
in file order), whose reviewed_at is not the latest. -/
theorem validation_latest_counterexample :
    get_validation_review_rows
      [⟨0, "train", "good", "", "2024-02-01T00:00:00"⟩,
       ⟨0, "train", "bad", "", "2024-01-01T00:00:00"⟩]
      [⟨0, "text0", "c0", "r0"⟩] [] "all" "all" ""
      = .ok [⟨"train", 0, "bad", "", "2024-01-01T00:00:00", "text0", "c0", "r0"⟩]
    ∧ ("2024-01-01T00:00:00" : String) ≠ "2024-02-01T00:00:00" := by
  exact ⟨rfl, by decide⟩

/-- Witness for C8 (amended) at the counterexample store. -/
theorem validation_query_dedup_witness :
    ((("all" : String) = "all" ∨ ("all" : String) = "train"
        ∨ ("all" : String) = "test")
      ∧ (("all" : String) = "all" ∨ ("all" : String) = "good"
        ∨ ("all" : String) = "bad"))
    ∧ ∃ rows,
      get_validation_review_rows
        [⟨0, "train", "good", "", "2024-02-01T00:00:00"⟩,
         ⟨0, "train", "bad", "", "2024-01-01T00:00:00"⟩]
        [⟨0, "text0", "c0", "r0"⟩] [] "all" "all" "" = .ok rows ∧
      (rows.map rowKey).Nodup ∧
      rows.Pairwise (fun a b => b.reviewed_at ≤ a.reviewed_at) ∧
      (∀ r ∈ rows, ∃ e,
        ([⟨0, "train", "good", "", "2024-02-01T00:00:00"⟩,
          (⟨0, "train", "bad", "", "2024-01-01T00:00:00"⟩ : ValidationEntry)].filter
            (fun x => decide (entryKey x = rowKey r))).getLast? = some e ∧
        r.result = e.result ∧ r.notes = e.notes ∧
        r.reviewed_at = e.reviewed_at) ∧
      (∀ page limit : Int,
        get_validation_review
          [⟨0, "train", "good", "", "2024-02-01T00:00:00"⟩,
           ⟨0, "train", "bad", "", "2024-01-01T00:00:00"⟩]
          [⟨0, "text0", "c0", "r0"⟩] [] "all" "all" "" page limit
          = paginate rows page limit) :=
  ⟨⟨Or.inl rfl, Or.inl rfl⟩,
    validation_query_dedup
      [⟨0, "train", "good", "", "2024-02-01T00:00:00"⟩,
       ⟨0, "train", "bad", "", "2024-01-01T00:00:00"⟩]
      [⟨0, "text0", "c0", "r0"⟩] [] "all" "all" ""
      (Or.inl rfl) (Or.inl rfl)⟩

/-- `x or \x7b\x7d` leaves a dict unchanged (an empty dict is falsy, but
the fallback is the empty dict itself). -/
theorem pyOrEmptyObj_obj (kvs : List (String × JVal)) :
    pyOrEmptyObj (JVal.obj kvs) = JVal.obj kvs := by
  cases kvs with
  | nil => rfl
  | cons hd tl => rfl

/-- The counting pass accumulates exactly the per-included-experiment
aggregate counts. -/
theorem review_all_scan_spec (filters : ReviewAllFilters) :
    ∀ (ds included : List ExperimentDir) (counts : Counts),
      review_all_scan filters ds = .ok (included, counts) →
      counts = (included.map
        (fun d => compute_confusion_counts (scoreVariantsOf d))).foldr
          Counts.add ⟨0, 0, 0, 0⟩ := by
  intro ds
  induction ds with
  | nil =>
    intro included counts h
    unfold review_all_scan at h
    simp only [Except.ok.injEq, Prod.mk.injEq] at h
    rw [← h.1, ← h.2]
    rfl
  | cons d rest ih =>
    intro included counts h
    unfold review_all_scan at h
    by_cases h1 : config_included filters d.config = false
    · rw [if_pos h1] at h
      exact ih _ _ h
    · rw [if_neg h1] at h
      by_cases h2 : ¬(d.has_outputs = true ∧ d.has_score = true)
      · rw [if_pos h2] at h
        exact ih _ _ h
      · rw [if_neg h2] at h
        cases hscore : d.score with
        | obj skvs =>
          simp only [hscore] at h
          cases hv : (JVal.obj skvs).get? "variants" with
          | none =>
            simp only [hv] at h
            exact Except.noConfusion h
          | some vv =>
            simp only [hv] at h
            cases vv with
            | obj vkvs =>
              cases hrec : review_all_scan filters rest with
              | error e =>
                simp only [hrec] at h
                exact Except.noConfusion h
              | ok p =>
                obtain ⟨inc, cnts⟩ := p
                simp only [hrec, Except.ok.injEq, Prod.mk.injEq] at h
                have hsv : scoreVariantsOf d = vkvs := by
                  unfold scoreVariantsOf
                  rw [hscore, hv]
                rw [← h.1, ← h.2, List.map_cons, List.foldr_cons, hsv,
                  ← ih inc cnts hrec]
            | null =>
              simp only [hv] at h
              exact Except.noConfusion h
            | bool b =>
              simp only [hv] at h
              exact Except.noConfusion h
            | int n =>
              simp only [hv] at h
              exact Except.noConfusion h
            | str s =>
              simp only [hv] at h
              exact Except.noConfusion h
            | arr xs =>
              simp only [hv] at h
              exact Except.noConfusion h
        | null =>
          simp only [hscore] at h
          exact Except.noConfusion h
        | bool b =>
          simp only [hscore] at h
          exact Except.noConfusion h
        | int n =>
          simp only [hscore] at h
          exact Except.noConfusion h
        | str s =>
          simp only [hscore] at h
          exact Except.noConfusion h
        | arr xs =>
          simp only [hscore] at h
          exact Except.noConfusion h

/-- The number of classified rows is the sum of the four category
counts. -/
theorem countCat_total :
    ∀ rows : List ReviewRow,
      (rows.length : Int) = countCat rows .tp + countCat rows .fp
        + countCat rows .fn + countCat rows .tn := by
  intro rows
  induction rows with
  | nil => simp [countCat]
  | cons r rest ih =>
    rcases hr : r.category
    all_goals
      simp only [List.length_cons, countCat_cons, hr]
      push_cast
      omega

/-- A consistent experiment's per-sample review succeeds and its category
totals match the aggregate counts of its score artifact. -/
theorem experiment_review_consistent (d : ExperimentDir)
    (hd : ExperimentConsistent d) :
    ∃ res, experiment_review d.outputs d.score = .ok res ∧
      res.counts = compute_confusion_counts (scoreVariantsOf d) ∧
      ∀ c, countCat res.rows c
        = (compute_confusion_counts (scoreVariantsOf d)).get c := by
  obtain ⟨okvs, skvs, svs, outs, meta, ho, hs, hv, hao, hvm, hnd, hrel⟩ := hd
  obtain ⟨rows, hok, hcnt⟩ :=
    review_rows_go_counts meta svs svs outs hrel
      (fun sv hsv => jLookup_of_mem_nodup svs sv hsv hnd)
  have hsv : scoreVariantsOf d = svs := by
    unfold scoreVariantsOf
    rw [hs, hv]
  have hsvobj : pyOrEmptyObj ((JVal.obj skvs).getD "variants" .null)
      = JVal.obj svs := by
    unfold JVal.getD
    rw [hv]
    exact pyOrEmptyObj_obj svs
  refine ⟨⟨compute_confusion_counts svs, rows⟩, ?_, by rw [hsv], ?_⟩
  · rw [ho, hs]
    simp only [experiment_review, hao, hvm, hsvobj, hok]
  · intro c
    rw [hsv, hcnt c, compute_confusion_counts_eq_sum]

/-- For consistent experiments, the aggregate-derived total of any valid
category equals the per-sample count of that category. -/
theorem total_eq_count (category_s : String)
    (hval : category_s = "" ∨ category_s = "tp" ∨ category_s = "fp"
      ∨ category_s = "fn" ∨ category_s = "tn") :
    ∀ included : List ExperimentDir,
      (∀ d ∈ included, ExperimentConsistent d) →
      review_all_total
        ((included.map
          (fun d => compute_confusion_counts (scoreVariantsOf d))).foldr
            Counts.add ⟨0, 0, 0, 0⟩) category_s
        = includedCategoryCount included (categoryOfStr category_s) := by
  intro included
  induction included with
  | nil =>
    intro _
    rcases hval with h | h | h | h | h
    all_goals subst h
    all_goals simp [review_all_total, includedCategoryCount, categoryOfStr]
  | cons d rest ih =>
    intro hcons
    obtain ⟨res, hok, hcounts, hcnt⟩ :=
      experiment_review_consistent d (hcons d (by simp))
    have hrest := ih (fun x hx => hcons x (by simp [hx]))
    have hstep : (List.map
          (fun d => compute_confusion_counts (scoreVariantsOf d)) (d :: rest)).foldr
            Counts.add ⟨0, 0, 0, 0⟩
        = (compute_confusion_counts (scoreVariantsOf d)).add
            ((rest.map
              (fun d => compute_confusion_counts (scoreVariantsOf d))).foldr
                Counts.add ⟨0, 0, 0, 0⟩) := by
      rw [List.map_cons, List.foldr_cons]
    have hinc : includedCategoryCount (d :: rest) (categoryOfStr category_s)
        = (match experiment_review d.outputs d.score with
           | .ok res =>
             match categoryOfStr category_s with
             | some c => countCat res.rows c
             | none => (res.rows.length : Int)
           | .error _ => 0)
          + includedCategoryCount rest (categoryOfStr category_s) := by
      unfold includedCategoryCount
      rw [List.map_cons, List.foldr_cons]
    rw [hstep, hinc, ← hrest]
    simp only [hok]
    rcases hval with h | h | h | h | h
    all_goals subst h
    · have e1 : ∀ C : Counts, review_all_total C ""
          = C.tp + C.fp + C.fn + C.tn := fun _ => rfl
      have e2 : categoryOfStr "" = none := rfl
      simp only [e1, e2, Counts.add]
      rw [countCat_total res.rows, hcnt Category.tp, hcnt Category.fp,
        hcnt Category.fn, hcnt Category.tn]
      simp only [Counts.get]
      ring
    · have e1 : ∀ C : Counts, review_all_total C "tp" = C.tp := fun _ => rfl
      have e2 : categoryOfStr "tp" = some Category.tp := rfl
      simp only [e1, e2, Counts.add]
      rw [hcnt Category.tp]
      simp only [Counts.get]
    · have e1 : ∀ C : Counts, review_all_total C "fp" = C.fp := fun _ => rfl
      have e2 : categoryOfStr "fp" = some Category.fp := rfl
      simp only [e1, e2, Counts.add]
      rw [hcnt Category.fp]
      simp only [Counts.get]
    · have e1 : ∀ C : Counts, review_all_total C "fn" = C.fn := fun _ => rfl
      have e2 : categoryOfStr "fn" = some Category.fn := rfl
      simp only [e1, e2, Counts.add]
      rw [hcnt Category.fn]
      simp only [Counts.get]
    · have e1 : ∀ C : Counts, review_all_total C "tn" = C.tn := fun _ => rfl
      have e2 : categoryOfStr "tn" = some Category.tn := rfl
      simp only [e1, e2, Counts.add]
      rw [hcnt Category.tn]
      simp only [Counts.get]

/-- Each right element of an aligned pair of lists has an aligned left
element. -/
theorem forall2_mem_right {α β : Type} {R : α → β → Prop} :
    ∀ {as : List α} {bs : List β}, List.Forall₂ R as bs →
      ∀ b ∈ bs, ∃ a ∈ as, R a b := by
  intro as bs hrel
  induction hrel with
  | nil =>
    intro b hb
    cases hb
  | cons hpair _ ih =>
    intro b hb
    rw [List.mem_cons] at hb
    rcases hb with hb | hb
    · exact ⟨_, by simp, hb ▸ hpair⟩
    · rcases ih b hb with ⟨a, ha, hr⟩
      exact ⟨a, List.mem_cons_of_mem _ ha, hr⟩

/-- A successful dict lookup comes from a member binding. -/
theorem jLookup_mem (kvs : List (String × JVal)) (k : String) (v : JVal)
    (h : jLookup kvs k = some v) : (k, v) ∈ kvs := by
  unfold jLookup at h
  cases hf : kvs.find? (fun p => p.1 = k) with
  | none =>
    rw [hf] at h
    cases h
  | some p =>
    rw [hf] at h
    simp only [Option.some.injEq] at h
    have hmem := List.mem_of_find?_eq_some hf
    have hkey : p.1 = k := by simpa using List.find?_some hf
    have : (k, v) = p := by
      rw [← hkey, ← h]
    rw [this]
    exact hmem

/-- The sample emission loop never errors on well-formed data. -/
theorem emit_samples_ok (exp_name vname category_s : String) (b : Bool)
    (start limit : Int) :
    ∀ (samples per_sample : List JVal) (seen : Int) (out : List AllSample),
      per_sample.length = samples.length →
      (∀ s ∈ samples, ∃ kvs, s = JVal.obj kvs) →
      (∀ p ∈ per_sample, WfPerSample p) →
      ∃ res, emit_samples exp_name vname category_s b start limit
        samples per_sample seen out = .ok res := by
  intro samples
  induction samples with
  | nil =>
    intro per seen out hlen _ _
    have hper : per = [] := List.eq_nil_of_length_eq_zero (by simpa using hlen)
    subst hper
    exact ⟨(seen, out), rfl⟩
  | cons s ss ih =>
    intro per seen out hlen hs hp
    cases per with
    | nil => simp at hlen
    | cons p ps =>
      obtain ⟨skvs, hskvs⟩ := hs s (by simp)
      obtain ⟨pkvs, hpkvs, hmk⟩ := hp p (by simp)
      have hlen2 : ps.length = ss.length := by simpa using hlen
      subst hskvs
      subst hpkvs
      simp only [emit_samples, hmk]
      by_cases h1 : category_s ≠ ""
          ∧ categoryStr (review_all_category b
              (decide (0 < (((matchedListOf (JVal.obj pkvs)).filter truthy).map
                pyStr).length))) ≠ category_s
      · rw [if_pos h1]
        exact ih ps seen out hlen2 (fun x hx => hs x (by simp [hx]))
          (fun x hx => hp x (by simp [hx]))
      · rw [if_neg h1]
        by_cases h2 : seen < start
        · rw [if_pos h2]
          exact ih ps (seen + 1) out hlen2 (fun x hx => hs x (by simp [hx]))
            (fun x hx => hp x (by simp [hx]))
        · rw [if_neg h2]
          by_cases h3 : limit ≤ (out.length : Int)
          · rw [if_pos h3]
            exact ⟨(seen, out), rfl⟩
          · rw [if_neg h3]
            exact ih ps (seen + 1) _ hlen2 (fun x hx => hs x (by simp [hx]))
              (fun x hx => hp x (by simp [hx]))

/-- The variant emission loop never errors when every variant it can
reach is well formed. -/
theorem emit_variants_ok (exp_name category_s : String) (start limit : Int)
    (all_outputs variants_meta score_variants : List (String × JVal)) :
    ∀ (names : List String) (seen : Int) (out : List AllSample),
      (∀ v ∈ names, EmitVariantWf all_outputs score_variants v) →
      ∃ res, emit_variants exp_name category_s start limit
        all_outputs variants_meta score_variants names seen out = .ok res := by
  intro names
  induction names with
  | nil =>
    intro seen out _
    exact ⟨(seen, out), rfl⟩
  | cons vname vrest ih =>
    intro seen out hwf
    cases hl : jLookup all_outputs vname with
    | none =>
      simp only [emit_variants, hl]
      exact ih seen out (fun v hv => hwf v (by simp [hv]))
    | some samples_v =>
      cases samples_v with
      | arr samples =>
        obtain ⟨per_sample, hps, hlen, hsam, hper⟩ :=
          hwf vname (by simp) samples hl
        obtain ⟨⟨seen2, out2⟩, hemit⟩ :=
          emit_samples_ok exp_name vname category_s
            (truthy ((vmetaOf variants_meta vname).getD "should_activate" (.bool false)))
            start limit samples per_sample seen out hlen hsam hper
        simp only [emit_variants, hl, hps, if_pos hlen, hemit]
        by_cases hfull : limit ≤ (out2.length : Int)
        · rw [if_pos hfull]
          exact ⟨(seen2, out2), rfl⟩
        · rw [if_neg hfull]
          exact ih seen2 out2 (fun v hv => hwf v (by simp [hv]))
      | null =>
        simp only [emit_variants, hl]
        exact ih seen out (fun v hv => hwf v (by simp [hv]))
      | bool b =>
        simp only [emit_variants, hl]
        exact ih seen out (fun v hv => hwf v (by simp [hv]))
      | int n =>
        simp only [emit_variants, hl]
        exact ih seen out (fun v hv => hwf v (by simp [hv]))
      | str s =>
        simp only [emit_variants, hl]
        exact ih seen out (fun v hv => hwf v (by simp [hv]))
      | obj kvs =>
        simp only [emit_variants, hl]
        exact ih seen out (fun v hv => hwf v (by simp [hv]))

/-- A consistent experiment makes every variant name well formed for
emission. -/
theorem consistent_emit_wf (meta svs outs : List (String × JVal))
    (hnd : (svs.map Prod.fst).Nodup)
    (hrel : List.Forall₂
      (fun sv ov => sv.1 = ov.1 ∧ VariantConsistent meta ov.1 sv.2 ov.2)
      svs outs) :
    ∀ v, EmitVariantWf outs svs v := by
  intro v samples hl
  have hmem : (v, JVal.arr samples) ∈ outs := jLookup_mem outs v _ hl
  obtain ⟨sv, hsvmem, hname, hcons⟩ := forall2_mem_right hrel _ hmem
  obtain ⟨b, samples0, per_sample, hsv0, ⟨ikvs, hinfo⟩, _, _, _, _, hps, hlen,
    hsam, hper⟩ := hcons
  have hsamples : samples0 = samples := by
    injection hsv0 with h
    exact h.symm
  subst hsamples
  have hlook : jLookup svs v = some sv.2 := by
    have := jLookup_of_mem_nodup svs sv hsvmem hnd
    rwa [hname] at this
  have hvs : vscoreOf svs v = JVal.obj ikvs := by
    unfold vscoreOf
    rw [hlook, hinfo]
  refine ⟨per_sample, ?_, hlen, hsam, hper⟩
  rw [hvs, ← hinfo]
  exact hps

/-- The experiment emission loop never errors on consistent
experiments. -/
theorem emit_experiments_ok (category_s : String) (start limit : Int) :
    ∀ (included : List ExperimentDir) (seen : Int) (out : List AllSample),
      (∀ d ∈ included, ExperimentConsistent d) →
      ∃ res, emit_experiments category_s start limit included seen out
        = .ok res := by
  intro included
  induction included with
  | nil =>
    intro seen out _
    exact ⟨(seen, out), rfl⟩
  | cons d rest ih =>
    intro seen out hcons
    obtain ⟨okvs, skvs, svs, outs, meta, ho, hs, hv, hao, hvm, hnd, hrel⟩ :=
      hcons d (by simp)
    have hsvobj : pyOrEmptyObj ((JVal.obj skvs).getD "variants" .null)
        = JVal.obj svs := by
      unfold JVal.getD
      rw [hv]
      exact pyOrEmptyObj_obj svs
    obtain ⟨⟨seen2, out2⟩, hemit⟩ :=
      emit_variants_ok d.name category_s start limit outs meta svs
        (List.insertionSort (fun a b : String => a ≤ b) (outs.map Prod.fst))
        seen out (fun v _ => consistent_emit_wf meta svs outs hnd hrel v)
    rw [emit_experiments, ho, hs]
    simp only [hao, hvm, hsvobj, hemit]
    by_cases hfull : limit ≤ (out2.length : Int)
    · rw [if_pos hfull]
      exact ⟨(seen2, out2), rfl⟩
    · rw [if_neg hfull]
      exact ih seen2 out2 (fun x hx => hcons x (by simp [hx]))

/-- C3 (amended): for a fixed filter set, epoch and valid category, when
every included experiment's artifacts are consistent (per-variant
`num_samples`/`num_success` agreeing with the per-sample data), the
`total` of review-across-experiments equals the per-sample count of the
requested category (of all samples when no category is requested) across
every included experiment, and is the same for all valid page/limit
values even though row emission stops once the window is filled.  As
stated the claim also asserts this for inconsistent score artifacts,
which `review_all_total_counterexample` refutes. -/
theorem review_all_total_correct
    (dirs : List ExperimentDir) (epoch : Int) (category category_s : String)
    (filters : ReviewAllFilters) (included : List ExperimentDir)
    (counts_total : Counts)
    (hcs : pyLower (pyStrip category) = category_s)
    (hval : category_s = "" ∨ category_s = "tp" ∨ category_s = "fp"
      ∨ category_s = "fn" ∨ category_s = "tn")
    (hscan : review_all_scan filters (sortDirsByName dirs)
      = .ok (included, counts_total))
    (hcons : ∀ d ∈ included, ExperimentConsistent d) :
    ∀ p1 l1 p2 l2 : Int, 1 ≤ p1 → 1 ≤ l1 → 1 ≤ p2 → 1 ≤ l2 →
      ∃ r1 r2,
        get_experiments_review_all dirs true epoch category p1 l1 filters
          = .ok r1 ∧
        get_experiments_review_all dirs true epoch category p2 l2 filters
          = .ok r2 ∧
        r1.total = includedCategoryCount included (categoryOfStr category_s) ∧
        r2.total = r1.total := by
  have hrun : ∀ p l : Int, 1 ≤ p → 1 ≤ l →
      ∃ r, get_experiments_review_all dirs true epoch category p l filters
          = .ok r ∧
        r.total = review_all_total counts_total category_s := by
    intro p l hp hl
    obtain ⟨⟨seen2, out2⟩, hemit⟩ :=
      emit_experiments_ok category_s ((p - 1) * l) l included 0 [] hcons
    refine ⟨⟨epoch, category_s, counts_total, (included.length : Int), out2,
      review_all_total counts_total category_s, p, l,
      max 1 (Int.fdiv (review_all_total counts_total category_s + l - 1) l)⟩,
      ?_, rfl⟩
    unfold get_experiments_review_all
    rw [hcs, if_neg (not_not_intro hval)]
    rw [if_neg (by simp)]
    simp only [hscan]
    rw [if_neg (by omega), if_neg (by omega)]
    simp only [hemit]
  intro p1 l1 p2 l2 hp1 hl1 hp2 hl2
  obtain ⟨r1, h1, ht1⟩ := hrun p1 l1 hp1 hl1
  obtain ⟨r2, h2, ht2⟩ := hrun p2 l2 hp2 hl2
  refine ⟨r1, r2, h1, h2, ?_, by rw [ht1, ht2]⟩
  rw [ht1, review_all_scan_spec filters _ _ _ hscan]
  exact total_eq_count category_s hval included hcons

/-- The end-to-end example experiment is consistent. -/
theorem exampleDirConsistent : ExperimentConsistent exampleDir :=
  ⟨_, _, exampleScoreKvs, exampleOutsKvs, exampleMetaKvs, rfl, rfl, rfl, rfl,
    rfl, by simp [exampleScoreKvs], exampleForall2⟩

/-- C3 counterexample: a single included experiment whose score declares
`num_success = 3` while all three samples carry a matched keyword; the
endpoint returns total 3 for category tp, yet zero samples classify tp
(page 1 with limit 20 shows every matching sample, and there are none). -/
theorem review_all_total_counterexample :
    reviewAllSummary
      (get_experiments_review_all [inflatedDir] true 1 "tp" 1 20 emptyFilters)
      = some (3, [], ⟨3, 0, 0, 0⟩, 1)
    ∧ includedCategoryCount [inflatedDir] (categoryOfStr "tp") = 0
    ∧ (3 : Int) ≠ 0 := by
  exact ⟨rfl, rfl, by decide⟩

/-- Witness for C3 (amended) on the consistent example experiment, with
two different page/limit pairs. -/
theorem review_all_total_correct_witness :
    ∃ r1 r2,
      get_experiments_review_all [exampleDir] true 1 "tp" 1 20 emptyFilters
        = .ok r1 ∧
      get_experiments_review_all [exampleDir] true 1 "tp" 2 5 emptyFilters
        = .ok r2 ∧
      r1.total = includedCategoryCount [exampleDir] (categoryOfStr "tp") ∧
      r2.total = r1.total := by
  refine review_all_total_correct [exampleDir] 1 "tp" "tp" emptyFilters
    [exampleDir] ⟨2, 2, 1, 1⟩ rfl (Or.inr (Or.inl rfl)) rfl ?_
    1 20 2 5 (by norm_num) (by norm_num) (by norm_num) (by norm_num)
  intro d hd
  simp only [List.mem_cons, List.not_mem_nil, or_false] at hd
  subst hd
  exact exampleDirConsistent

/-- C10: the code accepts the experiment name ".." — whose pathlib final
component is ".." itself, not a different string as the claim assumes —
and joins it onto the experiments directory, escaping to its parent.
This contradicts the evident intent of `safe_experiment_dir` (confinement
to direct children), so it is recorded as a code bug rather than an
amended claim. -/
theorem safe_experiment_dir_dotdot :
    safe_experiment_dir "output/experiments" (fun _ => true) ".."
      = .ok "output/experiments/.."
    ∧ pyPathName ".." = ".." := by
  exact ⟨rfl, rfl⟩

end TomQuest
